import Mathlib

/-!
Shallow embedding of the gorgeous-hunks core: the unified-diff parser
(`parseDiff`, `parseHunkHeader`, `validateHunk`), the hunk manipulator
(`isSplittable`, `splitHunk`, `editHunk`, `recalculateHeader`,
`generatePatch`), the LLM interface (`hunkToLLMHunk`), the staging-plan
document parser (`parseStagingPlanDocument`) and the plan executor
(`executeStagingPlan`).  Strings are modelled as `List Char`; the JS
regular expressions are modelled by equivalent deterministic matchers.
-/

set_option maxHeartbeats 1000000

abbrev Str := List Char

/-- The kind of a diff line: context, add or remove (`DiffLine.type` in the source). -/
inductive LineKind
  | context
  | add
  | remove
deriving DecidableEq, Repr

/-- A single line within a diff hunk (`DiffLine` in `types.ts`). -/
structure DiffLine where
  type : LineKind
  content : Str
deriving DecidableEq, Repr

/-- A hunk (`Hunk` in `types.ts`). -/
structure Hunk where
  id : Str
  file : Str
  index : Nat
  header : Str
  oldStart : Nat
  oldCount : Nat
  newStart : Nat
  newCount : Nat
  lines : List DiffLine
  context : Option Str
deriving DecidableEq, Repr

/-- All changes to a single file (`FileDiff` in `types.ts`). -/
structure FileDiff where
  oldPath : Str
  newPath : Str
  isNew : Bool
  isDeleted : Bool
  isRenamed : Bool
  hunks : List Hunk
deriving DecidableEq, Repr

/-- A complete parsed diff (`ParsedDiff` in `types.ts`); the helper methods
are modelled as functions below. -/
structure ParsedDiff where
  files : List FileDiff
deriving DecidableEq, Repr

/-- `ParsedDiff.getAllHunks`: all hunks across all files, flattened. -/
def ParsedDiff.getAllHunks (d : ParsedDiff) : List Hunk :=
  d.files.flatMap (·.hunks)

/-- `ParsedDiff.getHunk`: look a hunk up by id, searching each file in order. -/
def ParsedDiff.getHunk (d : ParsedDiff) (i : Str) : Option Hunk :=
  d.files.findSome? (fun f => f.hunks.find? (fun h => h.id == i))

/-- `ParsedDiff.getFileHunks`: the hunks of the first file whose new or old
path matches. -/
def ParsedDiff.getFileHunks (d : ParsedDiff) (p : Str) : List Hunk :=
  match d.files.find? (fun f => f.newPath == p || f.oldPath == p) with
  | some f => f.hunks
  | none => []

/-! ### Decimal rendering of numbers (JS template `${n}` for a Nat) -/

/-- Fueled decimal rendering; the fuel never runs out when it starts at the
number itself. -/
def natStrAux : Nat → Nat → Str
  | 0, n => [Nat.digitChar n]
  | fuel + 1, n =>
    if n < 10 then [Nat.digitChar n]
    else natStrAux fuel (n / 10) ++ [Nat.digitChar (n % 10)]

/-- Decimal rendering of a natural number, as JS string interpolation produces. -/
def natStr (n : Nat) : Str := natStrAux n n

theorem natStrAux_fuel_eq : ∀ (m f1 f2 : Nat), m ≤ f1 → m ≤ f2 →
    natStrAux f1 m = natStrAux f2 m := by
  intro m
  induction m using Nat.strong_induction_on with
  | _ m ih =>
    intro f1 f2 h1 h2
    by_cases hlt : m < 10
    · cases f1 <;> cases f2 <;> simp [natStrAux, hlt]
    · cases f1 with
      | zero => omega
      | succ g1 =>
        cases f2 with
        | zero => omega
        | succ g2 =>
          simp only [natStrAux, if_neg hlt]
          rw [ih (m / 10) (by omega) g1 g2 (by omega) (by omega)]

theorem natStr_lt10 (n : Nat) (h : n < 10) : natStr n = [Nat.digitChar n] := by
  unfold natStr
  cases n <;> simp [natStrAux, h]

theorem natStr_ge10 (n : Nat) (h : ¬ n < 10) :
    natStr n = natStr (n / 10) ++ [Nat.digitChar (n % 10)] := by
  unfold natStr
  cases n with
  | zero => omega
  | succ k =>
    simp only [natStrAux, if_neg h]
    rw [natStrAux_fuel_eq ((k + 1) / 10) k ((k + 1) / 10) (by omega) (le_refl _)]

theorem natStr_ne_nil (n : Nat) : natStr n ≠ [] := by
  by_cases h : n < 10
  · rw [natStr_lt10 n h]; simp
  · rw [natStr_ge10 n h]; simp

theorem digitChar_isDigit : ∀ i : Fin 10, (Nat.digitChar i.val).isDigit = true := by decide

theorem mem_natStr_isDigit (n : Nat) : ∀ c ∈ natStr n, c.isDigit = true := by
  induction n using Nat.strong_induction_on with
  | _ n ih =>
    intro c hc
    by_cases h : n < 10
    · rw [natStr_lt10 n h] at hc
      simp only [List.mem_singleton] at hc
      subst hc
      exact digitChar_isDigit ⟨n, h⟩
    · rw [natStr_ge10 n h] at hc
      rcases List.mem_append.mp hc with h1 | h2
      · exact ih (n / 10) (Nat.div_lt_self (by omega) (by omega)) c h1
      · simp only [List.mem_singleton] at h2
        subst h2
        exact digitChar_isDigit ⟨n % 10, Nat.mod_lt _ (by omega)⟩

theorem digitChar_inj_lt : ∀ i j : Fin 10, Nat.digitChar i.val = Nat.digitChar j.val → i = j := by
  decide

theorem natStr_length_pos (n : Nat) : 0 < (natStr n).length := by
  cases h : natStr n with
  | nil => exact absurd h (natStr_ne_nil n)
  | cons a l => simp

theorem natStr_injective : Function.Injective natStr := by
  intro m n h
  induction m using Nat.strong_induction_on generalizing n with
  | _ m ih =>
    by_cases hm : m < 10 <;> by_cases hn : n < 10
    · rw [natStr_lt10 m hm, natStr_lt10 n hn] at h
      have := digitChar_inj_lt ⟨m, hm⟩ ⟨n, hn⟩ (by simpa using h)
      simpa using congrArg Fin.val this
    · exfalso
      rw [natStr_lt10 m hm, natStr_ge10 n hn] at h
      have hl := congrArg List.length h
      have := natStr_length_pos (n / 10)
      simp only [List.length_singleton, List.length_append] at hl
      omega
    · exfalso
      rw [natStr_ge10 m hm, natStr_lt10 n hn] at h
      have hl := congrArg List.length h
      have := natStr_length_pos (m / 10)
      simp only [List.length_singleton, List.length_append] at hl
      omega
    · rw [natStr_ge10 m hm, natStr_ge10 n hn] at h
      obtain ⟨h1, h2⟩ := List.append_inj' h (by simp)
      have hd : m / 10 = n / 10 := ih (m / 10) (Nat.div_lt_self (by omega) (by omega)) h1
      have hm2 : m % 10 = n % 10 := by
        have := digitChar_inj_lt ⟨m % 10, Nat.mod_lt _ (by omega)⟩
          ⟨n % 10, Nat.mod_lt _ (by omega)⟩ (by simpa using h2)
        simpa using congrArg Fin.val this
      omega

/-! ### String helpers (JS string operations on `List Char`) -/

/-- `strHasPre p s`: `p` is a literal prefix of `s` (JS `String.startsWith`). -/
def strHasPre : Str → Str → Bool
  | [], _ => true
  | _ :: _, [] => false
  | p :: ps, c :: cs => p == c && strHasPre ps cs

/-- JS whitespace test (`\s`), restricted to the ASCII whitespace characters. -/
def isWsChar (c : Char) : Bool :=
  c == ' ' || c == '\t' || c == '\n' || c == '\r' || c == '\x0b' || c == '\x0c'

/-- JS `String.trim`. -/
def jsTrim (s : Str) : Str :=
  ((s.dropWhile isWsChar).reverse.dropWhile isWsChar).reverse

/-- Maximal leading digit run: `(digits, rest)` (models greedy `\d+`). -/
def takeDigits : Str → Str × Str
  | [] => ([], [])
  | c :: cs =>
    if c.isDigit then
      let r := takeDigits cs
      (c :: r.1, r.2)
    else ([], c :: cs)

/-- Decimal value of a digit string (JS `parseInt(s, 10)` on an all-digit string). -/
def digitsVal (s : Str) : Nat :=
  s.foldl (fun a c => a * 10 + (c.toNat - 48)) 0

/-- `context.trim() || undefined` applied to the raw `@@` tail capture. -/
def ctxOpt (raw : Str) : Option Str :=
  let t := jsTrim raw
  if t = [] then none else some t

/-! ### The diff parser (`parser.ts`) -/

/-- The optional `,(\d+)` group of `HUNK_HEADER_REGEX`: `none` means the whole
regex fails (a comma not followed by digits), `some (none, r)` means the group
was skipped. -/
def matchCount : Str → Option (Option Nat × Str)
  | ',' :: rest =>
    let p := takeDigits rest
    if p.1 = [] then none else some (some (digitsVal p.1), p.2)
  | r => some (none, r)

/-- `HUNK_HEADER_REGEX = /^@@ -(\d+)(?:,(\d+))? \+(\d+)(?:,(\d+))? @@(.*)$/`,
returning start/count numbers (counts defaulted to 1) and the raw tail capture. -/
def matchHunkHeader (l : Str) : Option (Nat × Nat × Nat × Nat × Str) :=
  if strHasPre "@@ -".toList l then
    let p1 := takeDigits (l.drop 4)
    if p1.1 = [] then none else
    match matchCount p1.2 with
    | none => none
    | some (oc, r2) =>
      match r2 with
      | ' ' :: '+' :: s3 =>
        let p3 := takeDigits s3
        if p3.1 = [] then none else
        match matchCount p3.2 with
        | none => none
        | some (nc, r4) =>
          match r4 with
          | ' ' :: '@' :: '@' :: rest =>
            some (digitsVal p1.1, oc.getD 1, digitsVal p3.1, nc.getD 1, rest)
          | _ => none
      | _ => none
  else none

/-- Split `s` at the last occurrence of `" b/"` that leaves a nonempty tail
(the backtracking behaviour of the greedy `(.+) b\/(.+)$`). -/
def splitLastB : Str → Option (Str × Str)
  | [] => none
  | c :: rest =>
    match splitLastB rest with
    | some (b, a) => some (c :: b, a)
    | none =>
      match c, rest with
      | ' ', 'b' :: '/' :: d :: ds => some ([], d :: ds)
      | _, _ => none

/-- `FILE_HEADER_REGEX = /^diff --git a\/(.+) b\/(.+)$/` with greedy first group. -/
def matchFileHeader (l : Str) : Option (Str × Str) :=
  if strHasPre "diff --git a/".toList l then
    match splitLastB (l.drop 13) with
    | some ([], _) => none
    | some (b, a) => some (b, a)
    | none => none
  else none

/-- The metadata prefixes consumed after a file header other than the
new/deleted markers. -/
def isOtherMeta (l : Str) : Bool :=
  strHasPre "index ".toList l || strHasPre "--- ".toList l || strHasPre "+++ ".toList l ||
  strHasPre "old mode".toList l || strHasPre "new mode".toList l ||
  strHasPre "similarity index".toList l || strHasPre "rename from".toList l ||
  strHasPre "rename to".toList l || strHasPre "Binary files".toList l

/-- JS `String.split('\n')`: always returns (number of newlines)+1 pieces. -/
def splitNl : Str → List Str
  | [] => [[]]
  | c :: rest =>
    if c = '\n' then [] :: splitNl rest
    else
      match splitNl rest with
      | [] => [[c]]
      | l :: ls => (c :: l) :: ls

theorem splitNl_ne_nil (s : Str) : splitNl s ≠ [] := by
  cases s with
  | nil => simp [splitNl]
  | cons c rest =>
    simp only [splitNl]
    split
    · simp
    · split <;> simp

/-- The in-progress file of the parser loop: its metadata, closed hunks,
the in-progress hunk, the running hunk index, and whether the parser is
still consuming the metadata lines that follow the file header (the
look-ahead loop of the source, modelled as a mode flag). -/
structure CurFile where
  oldPath : Str
  newPath : Str
  isNew : Bool
  isDeleted : Bool
  isRenamed : Bool
  hunks : List Hunk
  curHunk : Option Hunk
  hunkIndex : Nat
  metaMode : Bool
deriving DecidableEq, Repr

/-- Close the current file: flush the in-progress hunk and build the `FileDiff`. -/
def CurFile.close (c : CurFile) : FileDiff :=
  { oldPath := c.oldPath, newPath := c.newPath, isNew := c.isNew,
    isDeleted := c.isDeleted, isRenamed := c.isRenamed,
    hunks := c.hunks ++ c.curHunk.toList }

def closeOpt : Option CurFile → List FileDiff
  | none => []
  | some c => [c.close]

/-- The full parser state: closed files plus the in-progress file. -/
structure PState where
  files : List FileDiff
  cur : Option CurFile
deriving DecidableEq, Repr

/-- Handle one line inside a file in normal mode: hunk header or body line. -/
def hunkLineStep (c : CurFile) (l : Str) : CurFile :=
  match matchHunkHeader l with
  | some (os, oc, ns, nc, raw) =>
    let nh : Hunk :=
      { id := c.newPath ++ ':' :: natStr c.hunkIndex,
        file := c.newPath, index := c.hunkIndex, header := l,
        oldStart := os, oldCount := oc, newStart := ns, newCount := nc,
        lines := [], context := ctxOpt raw }
    { c with hunks := c.hunks ++ c.curHunk.toList,
             curHunk := some nh,
             hunkIndex := c.hunkIndex + 1 }
  | none =>
    match c.curHunk, l with
    | some hk, ch :: cs =>
      if ch = ' ' then
        { c with curHunk := some { hk with lines := hk.lines ++ [⟨LineKind.context, cs⟩] } }
      else if ch = '-' then
        { c with curHunk := some { hk with lines := hk.lines ++ [⟨LineKind.remove, cs⟩] } }
      else if ch = '+' then
        { c with curHunk := some { hk with lines := hk.lines ++ [⟨LineKind.add, cs⟩] } }
      else c
    | some _, [] => c
    | none, _ => c

/-- The main parser loop of `parseDiff`, one step per input line. -/
def parseStep (st : PState) (l : Str) : PState :=
  match matchFileHeader l with
  | some (op, np) =>
    { files := st.files ++ closeOpt st.cur,
      cur := some { oldPath := op, newPath := np, isNew := false, isDeleted := false,
                    isRenamed := decide (op ≠ np), hunks := [], curHunk := none,
                    hunkIndex := 0, metaMode := true } }
  | none =>
    match st.cur with
    | none => st
    | some c =>
      if c.metaMode = true then
        if strHasPre "new file mode".toList l then
          { st with cur := some { c with isNew := true } }
        else if strHasPre "deleted file mode".toList l then
          { st with cur := some { c with isDeleted := true } }
        else if isOtherMeta l then st
        else { st with cur := some (hunkLineStep { c with metaMode := false } l) }
      else { st with cur := some (hunkLineStep c l) }

/-- `parseDiff` from `parser.ts`. -/
def parseDiff (s : Str) : ParsedDiff :=
  let st := (splitNl s).foldl parseStep { files := [], cur := none }
  ⟨st.files ++ closeOpt st.cur⟩

/-- The record returned by `parseHunkHeader`. -/
structure HunkHeaderInfo where
  oldStart : Nat
  oldCount : Nat
  newStart : Nat
  newCount : Nat
  context : Option Str
deriving DecidableEq, Repr

/-- `parseHunkHeader` from `parser.ts`. -/
def parseHunkHeader (l : Str) : Option HunkHeaderInfo :=
  match matchHunkHeader l with
  | some (os, oc, ns, nc, raw) => some ⟨os, oc, ns, nc, ctxOpt raw⟩
  | none => none

/-- The record returned by `validateHunk`. -/
structure ValidateResult where
  valid : Bool
  error : Option Str
deriving DecidableEq, Repr

/-- `validateHunk` from `parser.ts`. -/
def validateHunk (h : Hunk) : ValidateResult :=
  let contextCount := (h.lines.filter (fun l => l.type == LineKind.context)).length
  let removeCount := (h.lines.filter (fun l => l.type == LineKind.remove)).length
  let addCount := (h.lines.filter (fun l => l.type == LineKind.add)).length
  let expectedOldCount := contextCount + removeCount
  let expectedNewCount := contextCount + addCount
  if expectedOldCount ≠ h.oldCount then
    { valid := false,
      error := some ("Old count mismatch: header says ".toList ++ natStr h.oldCount ++
        ", actual is ".toList ++ natStr expectedOldCount) }
  else if expectedNewCount ≠ h.newCount then
    { valid := false,
      error := some ("New count mismatch: header says ".toList ++ natStr h.newCount ++
        ", actual is ".toList ++ natStr expectedNewCount) }
  else { valid := true, error := none }

/-! ### The hunk manipulator (`manipulator.ts`) -/

/-- Loop of `isSplittable`: scan with `inChangeGroup` flag and context counter. -/
def isSplittableAux (g : Nat) : List DiffLine → Bool → Nat → Bool
  | [], _, _ => false
  | l :: rest, inCh, cnt =>
    if l.type = LineKind.context then
      if inCh = true then
        if g ≤ cnt + 1 then isSplittableAux g rest false (cnt + 1)
        else isSplittableAux g rest true (cnt + 1)
      else isSplittableAux g rest inCh cnt
    else
      if inCh = false ∧ g ≤ cnt ∧ 0 < cnt then true
      else isSplittableAux g rest true 0

/-- `isSplittable` from `manipulator.ts` (`minContextGap` passed explicitly;
the source default is 1). -/
def isSplittable (h : Hunk) (minContextGap : Nat) : Bool :=
  isSplittableAux minContextGap h.lines false 0

/-- `oldCount` of a line list: context and remove lines (non-add). -/
def oldLineCount (ls : List DiffLine) : Nat :=
  ls.countP (fun l => !(l.type == LineKind.add))

/-- `newCount` of a line list: context and add lines (non-remove). -/
def newLineCount (ls : List DiffLine) : Nat :=
  ls.countP (fun l => !(l.type == LineKind.remove))

/-- State of the grouping loop inside `splitHunk`. -/
structure SState where
  groups : List (List DiffLine)
  cur : List DiffLine
  buf : List DiffLine
  inCh : Bool
deriving DecidableEq, Repr

/-- One iteration of the grouping loop of `splitHunk`.  Note that on a gap
close the context buffer is *not* cleared, mirroring the source. -/
def splitStep (g : Nat) (s : SState) (l : DiffLine) : SState :=
  if l.type = LineKind.context then
    let buf' := s.buf ++ [l]
    if s.inCh = true ∧ g ≤ buf'.length then
      { groups := s.groups ++ [s.cur ++ buf'.take g],
        cur := buf'.drop g, buf := buf', inCh := false }
    else { s with buf := buf' }
  else
    { s with cur := s.cur ++ s.buf ++ [l], buf := [], inCh := true }

/-- The final flush of the grouping loop (push the open group with its
pending trailing context). -/
def splitFinish (s : SState) : List (List DiffLine) :=
  if s.cur = [] then s.groups else s.groups ++ [s.cur ++ s.buf]

/-- The list of line groups `splitHunk` cuts a hunk body into. -/
def splitGroups (g : Nat) (ls : List DiffLine) : List (List DiffLine) :=
  splitFinish (ls.foldl (splitStep g) ⟨[], [], [], false⟩)

/-- Header text `@@ -os,oc +ns,nc @@[ context]`. -/
def headerStr (os oc ns nc : Nat) (ctx : Option Str) : Str :=
  "@@ -".toList ++ natStr os ++ ',' :: natStr oc ++ " +".toList ++ natStr ns ++
    ',' :: natStr nc ++ " @@".toList ++ (match ctx with | some c => ' ' :: c | none => [])

/-- Turn the groups back into sub-hunks, advancing the line counters. -/
def mkSubHunks (h : Hunk) : List (List DiffLine) → Nat → Nat → Nat → List Hunk
  | [], _, _, _ => []
  | group :: rest, oldLine, newLine, groupIndex =>
    let so := oldLineCount group
    let sn := newLineCount group
    let sub : Hunk :=
      { id := h.file ++ ':' :: natStr h.index ++ '.' :: natStr groupIndex,
        file := h.file, index := h.index,
        header := headerStr oldLine so newLine sn h.context,
        oldStart := oldLine, oldCount := so, newStart := newLine, newCount := sn,
        lines := group, context := h.context }
    sub :: mkSubHunks h rest (oldLine + so) (newLine + sn) (groupIndex + 1)

/-- `splitHunk` from `manipulator.ts`. -/
def splitHunk (h : Hunk) (minContextGap : Nat) : List Hunk :=
  if isSplittable h minContextGap then
    mkSubHunks h (splitGroups minContextGap h.lines) h.oldStart h.newStart 0
  else [h]

/-- `recalculateHeader` from `manipulator.ts`. -/
def recalculateHeader (h : Hunk) : Str :=
  headerStr h.oldStart (oldLineCount h.lines) h.newStart (newLineCount h.lines) h.context

/-- The modifications record taken by `editHunk`. -/
structure EditMods where
  removeAdditions : List Nat
  keepRemovals : List Nat
deriving DecidableEq, Repr

/-- The line walk of `editHunk`: drop selected additions, demote selected
removals to context, keep everything else. -/
def editLinesGo (removeAdd keepRem : List Nat) : List DiffLine → Nat → List DiffLine
  | [], _ => []
  | l :: rest, i =>
    if l.type = LineKind.add then
      if i ∈ removeAdd then editLinesGo removeAdd keepRem rest (i + 1)
      else l :: editLinesGo removeAdd keepRem rest (i + 1)
    else if l.type = LineKind.remove then
      if i ∈ keepRem then ⟨LineKind.context, l.content⟩ :: editLinesGo removeAdd keepRem rest (i + 1)
      else l :: editLinesGo removeAdd keepRem rest (i + 1)
    else l :: editLinesGo removeAdd keepRem rest (i + 1)

/-- `editHunk` from `manipulator.ts`. -/
def editHunk (h : Hunk) (mods : EditMods) : Hunk :=
  let newLines := editLinesGo mods.removeAdditions mods.keepRemovals h.lines 0
  let e : Hunk :=
    { h with lines := newLines,
             oldCount := oldLineCount newLines,
             newCount := newLineCount newLines }
  { e with header := recalculateHeader e }

/-- Insert into the association list kept by the `Map` in `generatePatch`
(insertion order of first appearance, appending within a key). -/
def insertGroup (acc : List (Str × List Hunk)) (h : Hunk) : List (Str × List Hunk) :=
  match acc with
  | [] => [(h.file, [h])]
  | (f, hs) :: rest =>
    if f = h.file then (f, hs ++ [h]) :: rest else (f, hs) :: insertGroup rest h

/-- Group hunks by `file`, preserving first-appearance order of files. -/
def groupByFile (hunks : List Hunk) : List (Str × List Hunk) :=
  hunks.foldl insertGroup []

/-- Insert a hunk behind all earlier hunks with `oldStart ≤` its own
(one step of a stable insertion sort). -/
def insertByOldStart (x : Hunk) : List Hunk → List Hunk
  | [] => [x]
  | y :: ys => if y.oldStart ≤ x.oldStart then y :: insertByOldStart x ys else x :: y :: ys

/-- The stable sort by `oldStart` used in `generatePatch`. -/
def sortByOldStart (hs : List Hunk) : List Hunk :=
  hs.foldl (fun acc x => insertByOldStart x acc) []

/-- Render one body line with its one-character prefix. -/
def lineText (l : DiffLine) : Str :=
  (match l.type with
   | LineKind.context => ' '
   | LineKind.add => '+'
   | LineKind.remove => '-') :: l.content

/-- The lines emitted for one file in `generatePatch`. -/
def fileSection (f : Str) (hs : List Hunk) : List Str :=
  ("diff --git a/".toList ++ f ++ " b/".toList ++ f) ::
  ("--- a/".toList ++ f) ::
  ("+++ b/".toList ++ f) ::
  (sortByOldStart hs).flatMap (fun h => h.header :: h.lines.map lineText)

/-- `generatePatch` from `manipulator.ts`. -/
def generatePatch (hunks : List Hunk) : Str :=
  if hunks = [] then [] else
  let sections := (groupByFile hunks).flatMap (fun p => fileSection p.1 p.2)
  List.intercalate ['\n'] sections ++ ['\n']

/-! ### The LLM interface (`llm-interface.ts`) -/

/-- An indexed line (`IndexedLine` in `llm-interface.ts`). -/
structure IndexedLine where
  index : Nat
  type : LineKind
  content : Str
  oldLineNo : Option Nat
  newLineNo : Option Nat
deriving DecidableEq, Repr

/-- The LLM-facing hunk representation (`LLMHunk` in `llm-interface.ts`). -/
structure LLMHunk where
  id : Str
  file : Str
  context : Option Str
  splittable : Bool
  splitCount : Option Nat
  summary : Str
  lines : List IndexedLine
  addedLineIndices : List Nat
  removedLineIndices : List Nat
  complexityHint : Nat
deriving DecidableEq, Repr

/-- The indexing walk of `hunkToLLMHunk`, threading old/new line counters. -/
def indexLinesGo : List DiffLine → Nat → Nat → Nat → List IndexedLine
  | [], _, _, _ => []
  | l :: rest, i, oldLine, newLine =>
    match l.type with
    | LineKind.context =>
      ⟨i, l.type, l.content, some oldLine, some newLine⟩ ::
        indexLinesGo rest (i + 1) (oldLine + 1) (newLine + 1)
    | LineKind.remove =>
      ⟨i, l.type, l.content, some oldLine, none⟩ ::
        indexLinesGo rest (i + 1) (oldLine + 1) newLine
    | LineKind.add =>
      ⟨i, l.type, l.content, none, some newLine⟩ ::
        indexLinesGo rest (i + 1) oldLine (newLine + 1)

/-- Indices (positions in the line sequence) of the add lines. -/
def addedIdx (ls : List DiffLine) : List Nat :=
  (ls.enum.filter (fun p => p.2.type == LineKind.add)).map (·.1)

/-- Indices (positions in the line sequence) of the remove lines. -/
def removedIdx (ls : List DiffLine) : List Nat :=
  (ls.enum.filter (fun p => p.2.type == LineKind.remove)).map (·.1)

/-- `summarizeChanges` from `llm-interface.ts`. -/
def summarizeChanges (h : Hunk) : Str :=
  let adds := (h.lines.filter (fun l => l.type == LineKind.add)).length
  let removes := (h.lines.filter (fun l => l.type == LineKind.remove)).length
  if adds = 0 ∧ removes = 0 then "no changes".toList
  else if 0 < adds ∧ 0 < removes then
    '+' :: natStr adds ++ " lines".toList ++ ", -".toList ++ natStr removes ++ " lines".toList
  else if 0 < adds then '+' :: natStr adds ++ " lines".toList
  else '-' :: natStr removes ++ " lines".toList

/-- `hunkToLLMHunk` from `llm-interface.ts` (both `isSplittable` and
`splitHunk` are called with the default `minContextGap = 1`). -/
def hunkToLLMHunk (h : Hunk) : LLMHunk :=
  let added := addedIdx h.lines
  let removed := removedIdx h.lines
  let splittable := isSplittable h 1
  let splitCount := if splittable = true then some (splitHunk h 1).length else none
  let hint1 : Nat := if 1 < added.length ∨ 1 < removed.length then 4 else 1
  let hint : Nat := if splittable = true then min hint1 3 else hint1
  { id := h.id, file := h.file, context := h.context, splittable := splittable,
    splitCount := splitCount, summary := summarizeChanges h,
    lines := indexLinesGo h.lines 0 h.oldStart h.newStart,
    addedLineIndices := added, removedLineIndices := removed, complexityHint := hint }

/-! ### The staging plan model (`interactive.ts`) -/

/-- Case-insensitive literal prefix test (the pattern is given lowercase). -/
def strHasPreCI : Str → Str → Bool
  | [], _ => true
  | _ :: _, [] => false
  | p :: ps, c :: cs => p == c.toLower && strHasPreCI ps cs

/-- `/^Commit message:\s*(.+)$/` followed by `.trim()` on the capture. -/
def msgMatch (l : Str) : Option Str :=
  if strHasPre "Commit message:".toList l then
    let r := l.drop 15
    if r = [] then none else some (jsTrim r)
  else none

/-- `/^\[(x|~| )\]\s+(\S+)/`: file-level checkbox and captured filename. -/
def fileMatch (l : Str) : Option (Char × Str) :=
  match l with
  | '[' :: c :: ']' :: rest =>
    if c = 'x' ∨ c = '~' ∨ c = ' ' then
      if rest.takeWhile isWsChar = [] then none
      else
        let tok := (rest.dropWhile isWsChar).takeWhile (fun ch => !isWsChar ch)
        if tok = [] then none else some (c, tok)
    else none
  | _ => none

/-- Last colon-with-digits split of a whitespace-free token (the backtracking
behaviour of `(\S+:\d+)`); `before` may come out empty. -/
def idCaptureGo : Str → Option (Str × Str)
  | [] => none
  | c :: rest =>
    match idCaptureGo rest with
    | some (b, d) => some (c :: b, d)
    | none =>
      if c = ':' then
        let p := takeDigits rest
        if p.1 = [] then none else some ([], p.1)
      else none

/-- The `(\S+:\d+)` capture inside a token. -/
def tokenIdCapture (tok : Str) : Option Str :=
  match idCaptureGo tok with
  | some ([], _) => none
  | some (b, d) => some (b ++ ':' :: d)
  | none => none

/-- `/^###\s+(\S+:\d+)/`: hunk section header, returning the captured id. -/
def hunkHeadMatch (l : Str) : Option Str :=
  match l with
  | '#' :: '#' :: '#' :: rest =>
    if rest.takeWhile isWsChar = [] then none
    else tokenIdCapture ((rest.dropWhile isWsChar).takeWhile (fun ch => !isWsChar ch))
  | _ => none

/-- `/^\[x\]\s+Include entire hunk/i`. -/
def entireHunkMatch (l : Str) : Bool :=
  match l with
  | '[' :: c :: ']' :: rest =>
    if c.toLower = 'x' then
      if rest.takeWhile isWsChar = [] then false
      else strHasPreCI "include entire hunk".toList (rest.dropWhile isWsChar)
    else false
  | _ => false

/-- `/^\[x\]\s+\[\s*(\d+)\]\s*<sign>/` (lowercase `x` only): per-line selection
checkbox for an addition (`sign = '+'`) or a removal (`sign = '-'`). -/
def selMatch (sign : Char) (l : Str) : Option Nat :=
  match l with
  | '[' :: 'x' :: ']' :: rest =>
    if rest.takeWhile isWsChar = [] then none
    else
      match rest.dropWhile isWsChar with
      | '[' :: r2 =>
        let p := takeDigits (r2.dropWhile isWsChar)
        if p.1 = [] then none
        else
          match p.2 with
          | ']' :: r4 =>
            match r4.dropWhile isWsChar with
            | c :: _ => if c = sign then some (digitsVal p.1) else none
            | [] => none
          | _ => none
      | _ => none
  | _ => none

/-- `/^\[E\]\s+\[\s*(\d+)\]/i`: the needs-editing marker. -/
def editMarkMatch (l : Str) : Option Nat :=
  match l with
  | '[' :: c :: ']' :: rest =>
    if c.toLower = 'e' then
      if rest.takeWhile isWsChar = [] then none
      else
        match rest.dropWhile isWsChar with
        | '[' :: r2 =>
          let p := takeDigits (r2.dropWhile isWsChar)
          if p.1 = [] then none
          else match p.2 with
               | ']' :: _ => some (digitsVal p.1)
               | _ => none
        | _ => none
    else none
  | _ => none

/-- The `\s*(.+)$` tail of a directive: greedy whitespace skip, but at least
one captured character (an all-whitespace tail captures its last character). -/
def tailCapture (r : Str) : Option Str :=
  let t := r.dropWhile isWsChar
  if t = [] then
    match r.getLast? with
    | some c => some [c]
    | none => none
  else some t

/-- `/^EDIT\s+\[(\d+)\]:\s*(.+)$/` (case-sensitive). -/
def editDirectiveMatch (l : Str) : Option (Nat × Str) :=
  if strHasPre "EDIT".toList l then
    let rest := l.drop 4
    if rest.takeWhile isWsChar = [] then none
    else
      match rest.dropWhile isWsChar with
      | '[' :: r2 =>
        let p := takeDigits r2
        if p.1 = [] then none
        else
          match p.2 with
          | ']' :: ':' :: r4 =>
            match tailCapture r4 with
            | some cap => some (digitsVal p.1, cap)
            | none => none
          | _ => none
      | _ => none
  else none

/-- A line edit (`LineEdit` in `interactive.ts`). -/
structure LineEdit where
  lineIndex : Nat
  newContent : Str
deriving DecidableEq, Repr

/-- Selection mode (`'all' | 'none' | 'partial'`; the source's `'partial'` is
called `mixed` here because of a Lean keyword clash). -/
inductive SelMode
  | all
  | none
  | mixed
deriving DecidableEq, Repr

/-- Selection state for a single hunk (`HunkSelection` in `interactive.ts`). -/
structure HunkSelection where
  hunkId : Str
  mode : SelMode
  includeAdditions : Option (List Nat)
  includeRemovals : Option (List Nat)
  lineEdits : Option (List LineEdit)
  note : Option Str
deriving DecidableEq, Repr

/-- Compensation type (`'add_lines' | 'add_after_line' | 'add_before_line' |
'replace_line'`). -/
inductive CompType
  | addLines
  | addAfterLine
  | addBeforeLine
  | replaceLine
deriving DecidableEq, Repr

/-- A compensation (`Compensation` in `interactive.ts`). -/
structure Compensation where
  file : Str
  type : CompType
  lineNumber : Option Nat
  afterPattern : Option Str
  beforePattern : Option Str
  content : Str
  reason : Option Str
  removedBy : Option Str
deriving DecidableEq, Repr

/-- A staging plan (`StagingPlan` in `interactive.ts`). -/
structure StagingPlan where
  commitMessage : Str
  selections : List HunkSelection
  compensations : Option (List Compensation)
deriving DecidableEq, Repr

/-- `createSelectionWithRemovals` from `interactive.ts`. -/
def createSelectionWithRemovals (hunkId : Str) (entire : Bool)
    (adds removals : List Nat) (edits : List LineEdit) : HunkSelection :=
  if entire = true then
    { hunkId := hunkId, mode := SelMode.all, includeAdditions := Option.none,
      includeRemovals := Option.none,
      lineEdits := if 0 < edits.length then some edits else Option.none,
      note := Option.none }
  else if 0 < adds.length ∨ 0 < removals.length ∨ 0 < edits.length then
    { hunkId := hunkId, mode := SelMode.mixed,
      includeAdditions := if 0 < adds.length then some adds else Option.none,
      includeRemovals := if 0 < removals.length then some removals else Option.none,
      lineEdits := if 0 < edits.length then some edits else Option.none,
      note := Option.none }
  else
    { hunkId := hunkId, mode := SelMode.none, includeAdditions := Option.none,
      includeRemovals := Option.none, lineEdits := Option.none, note := Option.none }

/-- Case-insensitive literal keyword: on success return the rest of the line. -/
def matchKw (kw : Str) (s : Str) : Option Str :=
  if strHasPreCI kw s then some (s.drop kw.length) else none

/-- `\s+`: require at least one whitespace character, return the rest. -/
def wsPlus (s : Str) : Option Str :=
  if s.takeWhile isWsChar = [] then none else some (s.dropWhile isWsChar)

/-- Compensation anchors as matched by the three COMPENSATE header patterns. -/
inductive CompAnchor
  | afterPat (p : Str)
  | afterLine (n : Nat)
  | beforePat (p : Str)
deriving DecidableEq, Repr

/-- `"([^"]+)":` — quoted nonempty capture followed by a colon. -/
def quoteCapture (s : Str) : Option Str :=
  match s with
  | '"' :: r =>
    let cap := r.takeWhile (fun c => !(c == '"'))
    if cap = [] then none
    else match r.drop cap.length with
         | '"' :: ':' :: _ => some cap
         | _ => none
  | _ => none

/-- The three COMPENSATE header patterns of `parseCompensations` (all `/i`). -/
def compHeaderMatch (l : Str) : Option (Str × CompAnchor) :=
  match matchKw "compensate".toList l with
  | none => none
  | some r0 =>
    match wsPlus r0 with
    | none => none
    | some r1 =>
      let tok := r1.takeWhile (fun c => !isWsChar c)
      if tok = [] then none
      else
        match wsPlus (r1.drop tok.length) with
        | none => none
        | some r3 =>
          match matchKw "after".toList r3 with
          | some r4 =>
            (match wsPlus r4 with
             | some r5 =>
               (match quoteCapture r5 with
                | some cap => some (tok, CompAnchor.afterPat cap)
                | none =>
                  match matchKw "line".toList r5 with
                  | some r6 =>
                    (match wsPlus r6 with
                     | some r7 =>
                       let p := takeDigits r7
                       if p.1 = [] then none
                       else match p.2 with
                            | ':' :: _ => some (tok, CompAnchor.afterLine (digitsVal p.1))
                            | _ => none
                     | none => none)
                  | none => none)
             | none => none)
          | none =>
            match matchKw "before".toList r3 with
            | some r4 =>
              (match wsPlus r4 with
               | some r5 =>
                 (match quoteCapture r5 with
                  | some cap => some (tok, CompAnchor.beforePat cap)
                  | none => none)
               | none => none)
            | none => none

/-- `/^REASON:\s*(.+)$/i`. -/
def reasonMatch (l : Str) : Option Str :=
  match matchKw "reason:".toList l with
  | some r => tailCapture r
  | none => none

/-- `/^REMOVED_BY:\s*(.+)$/i`. -/
def removedByMatch (l : Str) : Option Str :=
  match matchKw "removed_by:".toList l with
  | some r => tailCapture r
  | none => none

/-- `/^COMPENSATE\s/i`: the break test inside a compensation body. -/
def compBreakMatch (l : Str) : Bool :=
  match matchKw "compensate".toList l with
  | some (c :: _) => isWsChar c
  | _ => false

/-- `/^###\s/`: the hunk-header break test inside a compensation body. -/
def hunkBreakMatch (l : Str) : Bool :=
  match l with
  | '#' :: '#' :: '#' :: c :: _ => isWsChar c
  | _ => false

/-- `line.replace(/^  /, '')`: strip one leading two-space indent. -/
def dedent (l : Str) : Str :=
  match l with
  | ' ' :: ' ' :: r => r
  | _ => l

/-- The content-collection loop of one COMPENSATE block: returns the collected
content lines, the REASON/REMOVED_BY metadata, and the unconsumed lines. -/
def compContent : List Str → List Str → Option Str → Option Str →
    List Str × Option Str × Option Str × List Str
  | [], acc, re, rb => (acc, re, rb, [])
  | l :: rest, acc, re, rb =>
    match reasonMatch l with
    | some r => compContent rest acc (some r) rb
    | none =>
      match removedByMatch l with
      | some r => compContent rest acc re (some r)
      | none =>
        if compBreakMatch l ∨ hunkBreakMatch l then (acc, re, rb, l :: rest)
        else if strHasPre "  ".toList l ∨ jsTrim l = [] then
          compContent rest (acc ++ [dedent l]) re rb
        else if acc = [] then compContent rest (acc ++ [l]) re rb
        else (acc, re, rb, l :: rest)

theorem compContent_length : ∀ (ls acc : List Str) (re rb : Option Str),
    (compContent ls acc re rb).2.2.2.length ≤ ls.length := by
  intro ls
  induction ls with
  | nil => intro acc re rb; simp [compContent]
  | cons l rest ih =>
    intro acc re rb
    simp only [compContent]
    split
    · exact (ih acc _ rb).trans (by simp)
    · split
      · exact (ih acc _ _).trans (by simp)
      · split
        · simp
        · split
          · exact (ih _ _ _).trans (by simp)
          · split
            · exact (ih _ _ _).trans (by simp)
            · simp

/-- The outer loop of `parseCompensations`, with explicit fuel (each step
consumes at least one line, so fuel = number of lines is always enough). -/
def parseCompsGo : Nat → List Str → List Compensation → List Compensation
  | _, [], acc => acc
  | 0, _ :: _, acc => acc
  | fuel + 1, l :: rest, acc =>
    match compHeaderMatch l with
    | some (file, anchor) =>
      let r := compContent rest [] none none
      let contentS := jsTrim (List.intercalate ['\n'] r.1)
      let comp : Compensation :=
        { file := file,
          type := match anchor with
                  | CompAnchor.afterPat _ => CompType.addAfterLine
                  | CompAnchor.afterLine _ => CompType.addAfterLine
                  | CompAnchor.beforePat _ => CompType.addBeforeLine,
          lineNumber := match anchor with | CompAnchor.afterLine n => some n | _ => none,
          afterPattern := match anchor with | CompAnchor.afterPat p => some p | _ => none,
          beforePattern := match anchor with | CompAnchor.beforePat p => some p | _ => none,
          content := contentS,
          reason := r.2.1, removedBy := r.2.2.1 }
      if contentS = [] then parseCompsGo fuel r.2.2.2 acc
      else parseCompsGo fuel r.2.2.2 (acc ++ [comp])
    | none => parseCompsGo fuel rest acc

/-- `parseCompensations` from `interactive.ts` (on the split line list). -/
def parseCompensations (lines : List Str) : List Compensation :=
  parseCompsGo lines.length lines []

/-- File-level mode from a file checkbox character. -/
inductive FileMode
  | all
  | mixed
  | skip
deriving DecidableEq, Repr

def upsertFM (m : List (Str × FileMode)) (k : Str) (v : FileMode) : List (Str × FileMode) :=
  match m with
  | [] => [(k, v)]
  | (k', v') :: rest => if k' = k then (k', v) :: rest else (k', v') :: upsertFM rest k v

def lookupFM (m : List (Str × FileMode)) (k : Str) : Option FileMode :=
  match m.find? (fun p => p.1 == k) with
  | some p => some p.2
  | none => none

/-- One line of the file-level selection pass. -/
def fileLevelStep (m : List (Str × FileMode)) (l : Str) : List (Str × FileMode) :=
  match fileMatch l with
  | some (c, fname) =>
    upsertFM m fname (if c = 'x' then FileMode.all else if c = '~' then FileMode.mixed else FileMode.skip)
  | none => m

/-- The file-level selection pass of `parseStagingPlanDocument`. -/
def fileLevelMap (lines : List Str) : List (Str × FileMode) :=
  lines.foldl fileLevelStep []

/-- Expansion of file-level selections into per-hunk selections. -/
def preSelections (diff : Option ParsedDiff) (m : List (Str × FileMode)) : List HunkSelection :=
  match diff with
  | none => []
  | some d =>
    if m = [] then []
    else d.files.flatMap (fun f =>
      match (lookupFM m f.newPath).orElse (fun _ => lookupFM m f.oldPath) with
      | some FileMode.all => f.hunks.map (fun h =>
          { hunkId := h.id, mode := SelMode.all, includeAdditions := Option.none,
            includeRemovals := Option.none, lineEdits := Option.none, note := Option.none })
      | some FileMode.skip => f.hunks.map (fun h =>
          { hunkId := h.id, mode := SelMode.none, includeAdditions := Option.none,
            includeRemovals := Option.none, lineEdits := Option.none, note := Option.none })
      | _ => [])

/-- The running state of the per-hunk parsing loop. -/
structure PlanState where
  selections : List HunkSelection
  currentHunkId : Option Str
  entire : Bool
  adds : List Nat
  removals : List Nat
  edits : List LineEdit
  inCode : Bool
deriving DecidableEq, Repr

/-- One iteration of the per-hunk parsing loop of `parseStagingPlanDocument`. -/
def planStep (st : PlanState) (l : Str) : PlanState :=
  match hunkHeadMatch l with
  | some hid =>
    let sels := match st.currentHunkId with
      | some old =>
        st.selections ++ [createSelectionWithRemovals old st.entire st.adds st.removals st.edits]
      | none => st.selections
    { selections := sels, currentHunkId := some hid, entire := false,
      adds := [], removals := [], edits := [], inCode := false }
  | none =>
    if entireHunkMatch l then { st with entire := true }
    else if strHasPre "```".toList l then { st with inCode := !st.inCode }
    else
      match st.currentHunkId with
      | none => st
      | some _ =>
        if st.inCode = true then
          match selMatch '+' l with
          | some n => { st with adds := st.adds ++ [n] }
          | none =>
            match selMatch '-' l with
            | some n => { st with removals := st.removals ++ [n] }
            | none =>
              match editMarkMatch l with
              | some n => { st with adds := st.adds ++ [n] }
              | none =>
                match editDirectiveMatch l with
                | some (n, c) => { st with edits := st.edits ++ [⟨n, c⟩] }
                | none => st
        else
          match editDirectiveMatch l with
          | some (n, c) => { st with edits := st.edits ++ [⟨n, c⟩] }
          | none => st

/-- The commit-message pass (first matching line wins; default otherwise). -/
def commitMsgOf (lines : List Str) : Str :=
  match lines.findSome? msgMatch with
  | some m => m
  | none => "untitled commit".toList

/-- `parseStagingPlanDocument` on the split line list. -/
def parsePlanLines (lines : List Str) (diff : Option ParsedDiff) : StagingPlan :=
  let msg := commitMsgOf lines
  let pre := preSelections diff (fileLevelMap lines)
  let st := lines.foldl planStep
    { selections := pre, currentHunkId := none, entire := false,
      adds := [], removals := [], edits := [], inCode := false }
  let sels := match st.currentHunkId with
    | some old =>
      st.selections ++ [createSelectionWithRemovals old st.entire st.adds st.removals st.edits]
    | none => st.selections
  let comps := parseCompensations lines
  { commitMessage := msg, selections := sels,
    compensations := if comps = [] then none else some comps }

/-- `parseStagingPlanDocument` from `interactive.ts`. -/
def parseStagingPlanDocument (document : Str) (diff : Option ParsedDiff) : StagingPlan :=
  parsePlanLines (splitNl document) diff

/-! ### The plan executor (`executeStagingPlan`), over an abstract VCS -/

/-- Result of the VCS `checkPatch` collaborator. -/
structure VCSCheck where
  applies : Bool
  error : Str
deriving DecidableEq, Repr

/-- Result of the VCS `applyPatchToIndex` collaborator. -/
structure VCSApply where
  success : Bool
  error : Str
deriving DecidableEq, Repr

/-- The VCS collaborator: `check` inspects the index state, `apply` may
change it. -/
structure VCS (σ : Type) where
  check : σ → Str → VCSCheck
  apply : σ → Str → σ × VCSApply

/-- The result record of `executeStagingPlan`. -/
structure ExecResult where
  success : Bool
  error : Option Str
  stagedHunks : List Str
deriving DecidableEq, Repr

/-- The patch fragment `executeStagingPlan` builds for one selection. -/
def selectionPatch (hk : Hunk) (sel : HunkSelection) : Str :=
  if sel.mode = SelMode.all ∧ (sel.lineEdits.getD []).length = 0 then
    generatePatch [hk]
  else
    let addIndices := addedIdx hk.lines
    let removeIndices := removedIdx hk.lines
    let includeAddSet := if sel.mode = SelMode.all then addIndices else sel.includeAdditions.getD []
    let removeAdditions := addIndices.filter (fun i => !(includeAddSet.contains i))
    let includeRemoveSet := if sel.mode = SelMode.all then removeIndices else sel.includeRemovals.getD []
    let keepRemovals := removeIndices.filter (fun i => !(includeRemoveSet.contains i))
    generatePatch [editHunk hk { removeAdditions := removeAdditions, keepRemovals := keepRemovals }]

/-- The selection loop of `executeStagingPlan`. -/
def execGo {σ : Type} (vcs : VCS σ) (diff : ParsedDiff) :
    List HunkSelection → σ → List Str → σ × ExecResult
  | [], s, staged => (s, { success := true, error := Option.none, stagedHunks := staged })
  | sel :: rest, s, staged =>
    if sel.mode = SelMode.none then execGo vcs diff rest s staged
    else
      match diff.getHunk sel.hunkId with
      | Option.none =>
        (s, { success := false, error := some ("Hunk not found: ".toList ++ sel.hunkId),
              stagedHunks := staged })
      | some hk =>
        let patch := selectionPatch hk sel
        let chk := vcs.check s patch
        if chk.applies = false then
          (s, { success := false,
                error := some ("Patch for ".toList ++ sel.hunkId ++ " won't apply: ".toList ++ chk.error),
                stagedHunks := staged })
        else
          let ap := vcs.apply s patch
          if ap.2.success = false then
            (ap.1, { success := false,
                     error := some ("Failed to stage ".toList ++ sel.hunkId ++ ": ".toList ++ ap.2.error),
                     stagedHunks := staged })
          else execGo vcs diff rest ap.1 (staged ++ [sel.hunkId])

/-- `executeStagingPlan` from `interactive.ts`, with the git collaborator
abstracted into a `VCS` over an index state `σ`. -/
def executeStagingPlan {σ : Type} (vcs : VCS σ) (s : σ) (diff : ParsedDiff)
    (plan : StagingPlan) : σ × ExecResult :=
  execGo vcs diff plan.selections s []

/-! ### The count-consistency invariant (spec section 8, property 1) -/

/-- `oldCount` equals the number of non-add lines and `newCount` the number of
non-remove lines. -/
def countInv (h : Hunk) : Prop :=
  h.oldCount = oldLineCount h.lines ∧ h.newCount = newLineCount h.lines

instance (h : Hunk) : Decidable (countInv h) :=
  inferInstanceAs (Decidable (_ = _ ∧ _ = _))

theorem oldLineCount_nil : oldLineCount [] = 0 := rfl

theorem oldLineCount_cons (l : DiffLine) (rest : List DiffLine) :
    oldLineCount (l :: rest) =
      (if l.type = LineKind.add then 0 else 1) + oldLineCount rest := by
  simp only [oldLineCount, List.countP_cons]
  cases h : l.type <;> simp [h] <;> omega

theorem newLineCount_cons (l : DiffLine) (rest : List DiffLine) :
    newLineCount (l :: rest) =
      (if l.type = LineKind.remove then 0 else 1) + newLineCount rest := by
  simp only [newLineCount, List.countP_cons]
  cases h : l.type <;> simp [h] <;> omega

/-- `validateHunk` succeeds exactly on count-consistent hunks. -/
theorem validateHunk_valid_iff (h : Hunk) :
    (validateHunk h).valid = true ↔ countInv h := by
  have hold : oldLineCount h.lines =
      (h.lines.filter (fun l => l.type == LineKind.context)).length +
        (h.lines.filter (fun l => l.type == LineKind.remove)).length := by
    induction h.lines with
    | nil => simp [oldLineCount]
    | cons l rest ih =>
      rw [oldLineCount_cons, ih]
      cases hl : l.type <;> simp [List.filter_cons, hl] <;> omega
  have hnew : newLineCount h.lines =
      (h.lines.filter (fun l => l.type == LineKind.context)).length +
        (h.lines.filter (fun l => l.type == LineKind.add)).length := by
    induction h.lines with
    | nil => simp [newLineCount]
    | cons l rest ih =>
      rw [newLineCount_cons, ih]
      cases hl : l.type <;> simp [List.filter_cons, hl] <;> omega
  simp only [validateHunk, countInv]
  rw [hold, hnew]
  split_ifs with h1 h2 <;> simp <;> omega

/-- Every hunk built by `mkSubHunks` carries counts recomputed from its own
line group. -/
theorem mkSubHunks_countInv (h : Hunk) :
    ∀ (groups : List (List DiffLine)) (ol nl gi : Nat),
      ∀ h' ∈ mkSubHunks h groups ol nl gi, countInv h' := by
  intro groups
  induction groups with
  | nil => intro ol nl gi h' hh; simp [mkSubHunks] at hh
  | cons g rest ih =>
    intro ol nl gi h' hh
    simp only [mkSubHunks, List.mem_cons] at hh
    rcases hh with rfl | hh
    · exact ⟨rfl, rfl⟩
    · exact ih _ _ _ h' hh

/-- `editHunk` recomputes its counts from the edited line list. -/
theorem editHunk_countInv (h : Hunk) (mods : EditMods) : countInv (editHunk h mods) :=
  ⟨rfl, rfl⟩

/-- The concrete malformed diff used against C1: the header claims five old
lines but the body has a single context line. -/
def c1BadDiff : Str := "diff --git a/f b/f\n@@ -1,5 +1,5 @@\n x\n".toList

/-- C1, as stated, is false: `parseDiff` copies the header counts verbatim,
so a hunk whose header lies about its counts violates the invariant. -/
theorem C1_counterexample :
    ¬ ∀ (s : Str), ∀ h ∈ (parseDiff s).getAllHunks, countInv h := by
  intro hall
  have hdec : ((parseDiff c1BadDiff).getAllHunks.all fun h => decide (countInv h)) = true := by
    rw [List.all_eq_true]
    intro h hh
    exact decide_eq_true (hall c1BadDiff h hh)
  exact absurd hdec (by decide)

/-- C1 (amended).  `editHunk` always recomputes `oldCount`/`newCount` from the
resulting lines, and so does `splitHunk` for every sub-hunk when the hunk is
splittable; `parseDiff` copies the header counts verbatim, so a parsed hunk
satisfies the invariant exactly when `validateHunk` accepts it. -/
theorem C1_count_consistency :
    (∀ (h : Hunk) (mods : EditMods), countInv (editHunk h mods)) ∧
    (∀ (h : Hunk) (g : Nat), isSplittable h g = true →
      ∀ h' ∈ splitHunk h g, countInv h') ∧
    (∀ (s : Str), ∀ h ∈ (parseDiff s).getAllHunks,
      (countInv h ↔ (validateHunk h).valid = true)) := by
  refine ⟨editHunk_countInv, ?_, ?_⟩
  · intro h g hs h' hh
    rw [splitHunk, if_pos hs] at hh
    exact mkSubHunks_countInv h _ _ _ _ h' hh
  · intro s h _
    exact (validateHunk_valid_iff h).symm

/-- Witness for C1: the amended statement applied at concrete inputs. -/
theorem C1_count_consistency_witness :
    countInv (editHunk
      { id := "f:0".toList, file := "f".toList, index := 0, header := "@@ -1,3 +1,4 @@".toList,
        oldStart := 1, oldCount := 3, newStart := 1, newCount := 4,
        lines := [⟨LineKind.context, "a".toList⟩, ⟨LineKind.add, "b".toList⟩],
        context := none }
      { removeAdditions := [1], keepRemovals := [] }) ∧
    (∀ h' ∈ splitHunk
      { id := "f:0".toList, file := "f".toList, index := 0, header := "@@ -1,2 +1,4 @@".toList,
        oldStart := 1, oldCount := 2, newStart := 1, newCount := 4,
        lines := [⟨LineKind.add, "a".toList⟩, ⟨LineKind.context, "c".toList⟩,
                  ⟨LineKind.add, "b".toList⟩],
        context := none } 1, countInv h') ∧
    (∀ h ∈ (parseDiff c1BadDiff).getAllHunks, (countInv h ↔ (validateHunk h).valid = true)) :=
  ⟨C1_count_consistency.1 _ _,
   C1_count_consistency.2.1 _ 1 (by decide),
   C1_count_consistency.2.2 c1BadDiff⟩

/-! ### C2: edit index semantics -/

/-- `List.contains` on index sets agrees with membership. -/
theorem natContains_eq (S : List Nat) (n : Nat) : S.contains n = decide (n ∈ S) :=
  List.elem_eq_mem n S

theorem editLinesGo_nil (A R : List Nat) (n : Nat) : editLinesGo A R [] n = [] := rfl

theorem editLinesGo_cons_add (A R : List Nat) (l : DiffLine) (rest : List DiffLine) (n : Nat)
    (h : l.type = LineKind.add) :
    editLinesGo A R (l :: rest) n =
      if n ∈ A then editLinesGo A R rest (n + 1) else l :: editLinesGo A R rest (n + 1) := by
  simp [editLinesGo, h]

theorem editLinesGo_cons_remove (A R : List Nat) (l : DiffLine) (rest : List DiffLine) (n : Nat)
    (h : l.type = LineKind.remove) :
    editLinesGo A R (l :: rest) n =
      if n ∈ R then (⟨LineKind.context, l.content⟩ : DiffLine) :: editLinesGo A R rest (n + 1)
      else l :: editLinesGo A R rest (n + 1) := by
  simp [editLinesGo, h]

theorem editLinesGo_cons_context (A R : List Nat) (l : DiffLine) (rest : List DiffLine) (n : Nat)
    (h : l.type = LineKind.context) :
    editLinesGo A R (l :: rest) n = l :: editLinesGo A R rest (n + 1) := by
  simp [editLinesGo, h]

/-- With only additions selected for removal, the edit walk filters the
enumerated list by position. -/
theorem editLinesGo_removeAdds (S : List Nat) :
    ∀ (ls : List DiffLine) (n : Nat),
      (∀ j ∈ S, n ≤ j → ∀ hj : j - n < ls.length, (ls.get ⟨j - n, hj⟩).type = LineKind.add) →
      editLinesGo S [] ls n =
        ((List.enumFrom n ls).filter (fun p => !(S.contains p.1))).map (·.2) := by
  intro ls
  induction ls with
  | nil => intro n _; simp [editLinesGo]
  | cons l rest ih =>
    intro n hS
    have hTail : ∀ j ∈ S, n + 1 ≤ j → ∀ hj : j - (n + 1) < rest.length,
        (rest.get ⟨j - (n + 1), hj⟩).type = LineKind.add := by
      intro j hj hnj hlt
      have h1 : j - n < (l :: rest).length := by simp; omega
      have := hS j hj (by omega) h1
      have he : j - n = (j - (n + 1)) + 1 := by omega
      revert this
      simp only [he, List.length_cons, List.get_cons_succ]
      exact id
    have hHead : n ∈ S → l.type = LineKind.add := by
      intro hn
      have h1 : n - n < (l :: rest).length := by simp
      have := hS n hn (le_refl n) h1
      revert this
      simp only [Nat.sub_self, List.get_cons_zero]
      exact id
    simp only [List.enumFrom_cons, List.filter_cons]
    cases hl : l.type with
    | add =>
      rw [editLinesGo_cons_add S [] l rest n hl]
      by_cases hn : n ∈ S
      · rw [if_pos hn, ih (n + 1) hTail]
        simp [natContains_eq, hn]
      · rw [if_neg hn, ih (n + 1) hTail]
        simp [natContains_eq, hn]
    | remove =>
      have hn : ¬ n ∈ S := fun hn => by
        have := hHead hn
        rw [hl] at this
        exact absurd this (by simp)
      rw [editLinesGo_cons_remove S [] l rest n hl, if_neg (by simp), ih (n + 1) hTail]
      simp [natContains_eq, hn]
    | context =>
      have hn : ¬ n ∈ S := fun hn => by
        have := hHead hn
        rw [hl] at this
        exact absurd this (by simp)
      rw [editLinesGo_cons_context S [] l rest n hl, ih (n + 1) hTail]
      simp [natContains_eq, hn]

/-- A single kept removal before the walk position changes nothing. -/
theorem editLinesGo_keepRem_past (i : Nat) :
    ∀ (ls : List DiffLine) (n : Nat), i < n → editLinesGo [] [i] ls n = ls := by
  intro ls
  induction ls with
  | nil => intro n _; simp [editLinesGo]
  | cons l rest ih =>
    intro n hin
    have hn : ¬ n ∈ [i] := by simp; omega
    cases hl : l.type with
    | add =>
      rw [editLinesGo_cons_add [] [i] l rest n hl, if_neg (by simp), ih (n + 1) (by omega)]
    | remove =>
      rw [editLinesGo_cons_remove [] [i] l rest n hl, if_neg hn, ih (n + 1) (by omega)]
    | context =>
      rw [editLinesGo_cons_context [] [i] l rest n hl, ih (n + 1) (by omega)]

/-- Keeping the removal at position `i` rewrites exactly that line to context. -/
theorem editLinesGo_keepRem (i : Nat) :
    ∀ (ls : List DiffLine) (n : Nat) (hn : n ≤ i) (hj : i - n < ls.length),
      (ls.get ⟨i - n, hj⟩).type = LineKind.remove →
      editLinesGo [] [i] ls n =
        ls.set (i - n) ⟨LineKind.context, (ls.get ⟨i - n, hj⟩).content⟩ := by
  intro ls
  induction ls with
  | nil => intro n hn hj; simp at hj
  | cons l rest ih =>
    intro n hn hj hrem
    by_cases hni : n = i
    · subst hni
      revert hj hrem
      simp only [Nat.sub_self]
      intro hj hrem
      have hrem' : l.type = LineKind.remove := hrem
      rw [editLinesGo_cons_remove [] [n] l rest n hrem', if_pos (by simp),
        editLinesGo_keepRem_past n rest (n + 1) (by omega)]
      rfl
    · have hlt : n < i := by omega
      have he : i - n = (i - (n + 1)) + 1 := by omega
      revert hj hrem
      simp only [he, List.length_cons, List.get_cons_succ, Nat.add_lt_add_iff_right]
      intro hj hrem
      cases hl : l.type with
      | add =>
        rw [editLinesGo_cons_add [] [i] l rest n hl, if_neg (by simp),
          ih (n + 1) (by omega) hj hrem]
        simp [List.set_cons_succ]
      | remove =>
        rw [editLinesGo_cons_remove [] [i] l rest n hl, if_neg (by simp; omega),
          ih (n + 1) (by omega) hj hrem]
        simp [List.set_cons_succ]
      | context =>
        rw [editLinesGo_cons_context [] [i] l rest n hl, ih (n + 1) (by omega) hj hrem]
        simp [List.set_cons_succ]

/-- Demoting a removal keeps the non-add count and raises the non-remove
count by one. -/
theorem counts_set_demote :
    ∀ (ls : List DiffLine) (k : Nat) (hk : k < ls.length) (c : Str),
      (ls.get ⟨k, hk⟩).type = LineKind.remove →
      oldLineCount (ls.set k ⟨LineKind.context, c⟩) = oldLineCount ls ∧
      newLineCount (ls.set k ⟨LineKind.context, c⟩) = newLineCount ls + 1 := by
  intro ls
  induction ls with
  | nil => intro k hk; simp at hk
  | cons l rest ih =>
    intro k hk c hrem
    cases k with
    | zero =>
      have hrem' : l.type = LineKind.remove := hrem
      simp only [List.set_cons_zero]
      rw [oldLineCount_cons, oldLineCount_cons, newLineCount_cons, newLineCount_cons, hrem']
      simp
      omega
    | succ k' =>
      simp only [List.length_cons, Nat.add_lt_add_iff_right] at hk
      simp only [List.get_cons_succ] at hrem
      simp only [List.set_cons_succ]
      obtain ⟨h1, h2⟩ := ih k' hk c hrem
      rw [oldLineCount_cons, oldLineCount_cons, newLineCount_cons, newLineCount_cons, h1, h2]
      omega

/-- C2 (amended).  Dropping a set of addition positions filters exactly those
positions out of the line sequence; keeping the removal at position `i`
rewrites that line to context with the same content, and — for a hunk whose
stored counts are consistent with its lines — leaves `oldCount` unchanged and
raises `newCount` by one. -/
theorem C2_edit_index_semantics :
    (∀ (h : Hunk) (S : List Nat),
      (∀ j ∈ S, ∃ hj : j < h.lines.length, (h.lines.get ⟨j, hj⟩).type = LineKind.add) →
      (editHunk h ⟨S, []⟩).lines =
        ((h.lines.enum.filter (fun p => !(S.contains p.1))).map (·.2))) ∧
    (∀ (h : Hunk) (i : Nat) (hi : i < h.lines.length),
      (h.lines.get ⟨i, hi⟩).type = LineKind.remove → countInv h →
      (editHunk h ⟨[], [i]⟩).lines =
        h.lines.set i ⟨LineKind.context, (h.lines.get ⟨i, hi⟩).content⟩ ∧
      (editHunk h ⟨[], [i]⟩).oldCount = h.oldCount ∧
      (editHunk h ⟨[], [i]⟩).newCount = h.newCount + 1) := by
  constructor
  · intro h S hS
    show editLinesGo S [] h.lines 0 = _
    rw [editLinesGo_removeAdds S h.lines 0]
    · rfl
    · intro j hj _ hlt
      obtain ⟨hj', hadd⟩ := hS j hj
      revert hadd
      simp only [Nat.sub_zero]
      exact id
  · intro h i hi hrem hinv
    have hset : editLinesGo [] [i] h.lines 0 =
        h.lines.set i ⟨LineKind.context, (h.lines.get ⟨i, hi⟩).content⟩ := by
      have := editLinesGo_keepRem i h.lines 0 (by omega) (by simpa using hi)
        (by revert hrem; simp only [Nat.sub_zero]; exact id)
      revert this
      simp only [Nat.sub_zero]
      exact id
    refine ⟨hset, ?_, ?_⟩
    · show oldLineCount (editLinesGo [] [i] h.lines 0) = h.oldCount
      rw [hset, (counts_set_demote h.lines i hi _ hrem).1, hinv.1]
    · show newLineCount (editLinesGo [] [i] h.lines 0) = h.newCount + 1
      rw [hset, (counts_set_demote h.lines i hi _ hrem).2, hinv.2]

/-- C2, as stated, is false: `editHunk` recomputes the counts, so a hunk whose
stored `oldCount` disagrees with its lines does not keep it. -/
theorem C2_counterexample :
    ¬ ∀ (h : Hunk) (i : Nat) (hi : i < h.lines.length),
        (h.lines.get ⟨i, hi⟩).type = LineKind.remove →
        (editHunk h ⟨[], [i]⟩).oldCount = h.oldCount ∧
        (editHunk h ⟨[], [i]⟩).newCount = h.newCount + 1 := by
  intro hall
  have := hall
    { id := "f:0".toList, file := "f".toList, index := 0, header := "@@ -1,7 +1,0 @@".toList,
      oldStart := 1, oldCount := 7, newStart := 1, newCount := 0,
      lines := [⟨LineKind.remove, "r".toList⟩], context := none }
    0 (by decide) (by decide)
  exact absurd this.1 (by decide)

/-- Witness for C2: both amended parts applied at a concrete hunk. -/
theorem C2_edit_index_semantics_witness :
    (editHunk
      { id := "f:0".toList, file := "f".toList, index := 0, header := "@@ -1,2 +1,4 @@".toList,
        oldStart := 1, oldCount := 2, newStart := 1, newCount := 4,
        lines := [⟨LineKind.add, "a".toList⟩, ⟨LineKind.remove, "r".toList⟩,
                  ⟨LineKind.add, "b".toList⟩, ⟨LineKind.context, "c".toList⟩],
        context := none } ⟨[0, 2], []⟩).lines =
      [⟨LineKind.remove, "r".toList⟩, ⟨LineKind.context, "c".toList⟩] ∧
    (editHunk
      { id := "f:0".toList, file := "f".toList, index := 0, header := "@@ -1,2 +1,2 @@".toList,
        oldStart := 1, oldCount := 2, newStart := 1, newCount := 2,
        lines := [⟨LineKind.context, "c".toList⟩, ⟨LineKind.remove, "r".toList⟩,
                  ⟨LineKind.add, "a".toList⟩],
        context := none } ⟨[], [1]⟩).oldCount = 2 := by
  constructor
  · have := C2_edit_index_semantics.1
      { id := "f:0".toList, file := "f".toList, index := 0, header := "@@ -1,2 +1,4 @@".toList,
        oldStart := 1, oldCount := 2, newStart := 1, newCount := 4,
        lines := [⟨LineKind.add, "a".toList⟩, ⟨LineKind.remove, "r".toList⟩,
                  ⟨LineKind.add, "b".toList⟩, ⟨LineKind.context, "c".toList⟩],
        context := none } [0, 2]
      (by intro j hj; fin_cases hj <;> exact ⟨by decide, by decide⟩)
    rw [this]
    decide
  · have := (C2_edit_index_semantics.2
      { id := "f:0".toList, file := "f".toList, index := 0, header := "@@ -1,2 +1,2 @@".toList,
        oldStart := 1, oldCount := 2, newStart := 1, newCount := 2,
        lines := [⟨LineKind.context, "c".toList⟩, ⟨LineKind.remove, "r".toList⟩,
                  ⟨LineKind.add, "a".toList⟩],
        context := none } 1 (by decide) (by decide) (by decide)).2.1
    rw [this]

/-! ### C6: the complexity hint -/

theorem enum_eq_enumFrom (ls : List DiffLine) : ls.enum = List.enumFrom 0 ls := rfl

theorem filtIdx_length (k : LineKind) :
    ∀ (ls : List DiffLine) (n : Nat),
      (((List.enumFrom n ls).filter (fun p => p.2.type == k)).map (·.1)).length =
        (ls.filter (fun l => l.type == k)).length := by
  intro ls
  induction ls with
  | nil => intro n; simp
  | cons l rest ih =>
    intro n
    simp only [List.enumFrom_cons, List.filter_cons]
    by_cases hl : l.type = k
    · simp only [hl, beq_self_eq_true, if_pos, List.map_cons, List.length_cons, ih]
    · have hb : (l.type == k) = false := beq_eq_false_iff_ne.mpr hl
      simp only [hb, Bool.false_eq_true, if_false]
      exact ih (n + 1)

theorem addedIdx_length (ls : List DiffLine) :
    (addedIdx ls).length = (ls.filter (fun l => l.type == LineKind.add)).length := by
  unfold addedIdx
  rw [enum_eq_enumFrom]
  exact filtIdx_length LineKind.add ls 0

theorem removedIdx_length (ls : List DiffLine) :
    (removedIdx ls).length = (ls.filter (fun l => l.type == LineKind.remove)).length := by
  unfold removedIdx
  rw [enum_eq_enumFrom]
  exact filtIdx_length LineKind.remove ls 0

/-- C6, as stated, is false: a hunk with two additions that is also splittable
gets hint `min 4 3 = 3`, so "≥ 4 iff multiple additions or removals" fails. -/
theorem C6_counterexample :
    ¬ ∀ h : Hunk, (4 ≤ (hunkToLLMHunk h).complexityHint ↔
        1 < (h.lines.filter (fun l => l.type == LineKind.add)).length ∨
        1 < (h.lines.filter (fun l => l.type == LineKind.remove)).length) := by
  intro hall
  have := (hall
    { id := "f:0".toList, file := "f".toList, index := 0, header := "@@ -1,1 +1,3 @@".toList,
      oldStart := 1, oldCount := 1, newStart := 1, newCount := 3,
      lines := [⟨LineKind.add, "a".toList⟩, ⟨LineKind.context, "c".toList⟩,
                ⟨LineKind.add, "b".toList⟩],
      context := none }).mpr (by decide)
  exact absurd this (by decide)

/-- C6 (amended): the final hint is 3 for a hunk with multiple additions or
removals that is splittable, 4 for one that is not splittable, and 1
otherwise (in particular a splittable hunk without multiple changes is *not*
capped to 3 — it stays 1). -/
theorem C6_complexity_hint (h : Hunk) :
    (hunkToLLMHunk h).complexityHint =
      if 1 < (h.lines.filter (fun l => l.type == LineKind.add)).length ∨
         1 < (h.lines.filter (fun l => l.type == LineKind.remove)).length then
        (if isSplittable h 1 = true then 3 else 4)
      else 1 := by
  show (if isSplittable h 1 = true then
          min (if 1 < (addedIdx h.lines).length ∨ 1 < (removedIdx h.lines).length then 4 else 1) 3
        else (if 1 < (addedIdx h.lines).length ∨ 1 < (removedIdx h.lines).length then 4 else 1)) = _
  rw [addedIdx_length, removedIdx_length]
  by_cases hm : 1 < (h.lines.filter (fun l => l.type == LineKind.add)).length ∨
      1 < (h.lines.filter (fun l => l.type == LineKind.remove)).length <;>
    by_cases hs : isSplittable h 1 = true <;>
      simp [hm, hs]

/-! ### C10: an empty partial selection is not skipped -/

theorem mem_filtIdx (k : LineKind) :
    ∀ (ls : List DiffLine) (n j : Nat),
      (j ∈ ((List.enumFrom n ls).filter (fun p => p.2.type == k)).map (·.1)) ↔
        (n ≤ j ∧ ∃ x, ls.get? (j - n) = some x ∧ x.type = k) := by
  intro ls
  induction ls with
  | nil => intro n j; simp
  | cons l rest ih =>
    intro n j
    simp only [List.enumFrom_cons, List.filter_cons]
    by_cases hl : l.type = k
    · simp only [hl, beq_self_eq_true, if_pos, List.map_cons, List.mem_cons, ih]
      constructor
      · rintro (rfl | ⟨h1, x, h2, h3⟩)
        · exact ⟨le_refl _, l, by simp [hl]⟩
        · refine ⟨by omega, x, ?_, h3⟩
          have he : j - n = (j - (n + 1)) + 1 := by omega
          rw [he]
          simpa using h2
      · rintro ⟨h1, x, h2, h3⟩
        by_cases hj : j = n
        · exact Or.inl hj
        · refine Or.inr ⟨by omega, x, ?_, h3⟩
          have he : j - n = (j - (n + 1)) + 1 := by omega
          rw [he] at h2
          simpa using h2
    · have hb : (l.type == k) = false := beq_eq_false_iff_ne.mpr hl
      simp only [hb, Bool.false_eq_true, if_false, ih]
      constructor
      · rintro ⟨h1, x, h2, h3⟩
        refine ⟨by omega, x, ?_, h3⟩
        have he : j - n = (j - (n + 1)) + 1 := by omega
        rw [he]
        simpa using h2
      · rintro ⟨h1, x, h2, h3⟩
        by_cases hj : j = n
        · subst hj
          simp only [Nat.sub_self, List.get?_cons_zero, Option.some.injEq] at h2
          subst h2
          exact absurd h3 hl
        · refine ⟨by omega, x, ?_, h3⟩
          have he : j - n = (j - (n + 1)) + 1 := by omega
          rw [he] at h2
          simpa using h2

theorem mem_addedIdx (ls : List DiffLine) (j : Nat) :
    j ∈ addedIdx ls ↔ ∃ x, ls.get? j = some x ∧ x.type = LineKind.add := by
  unfold addedIdx
  rw [enum_eq_enumFrom, mem_filtIdx]
  simp

theorem mem_removedIdx (ls : List DiffLine) (j : Nat) :
    j ∈ removedIdx ls ↔ ∃ x, ls.get? j = some x ∧ x.type = LineKind.remove := by
  unfold removedIdx
  rw [enum_eq_enumFrom, mem_filtIdx]
  simp

/-- When the drop set covers all additions and the keep set covers all
removals, the edit walk turns the body into pure context. -/
theorem editLinesGo_all (A R : List Nat) :
    ∀ (ls : List DiffLine) (n : Nat),
      (∀ j x, ls.get? j = some x →
        (x.type = LineKind.add → (n + j) ∈ A) ∧ (x.type = LineKind.remove → (n + j) ∈ R)) →
      editLinesGo A R ls n =
        (ls.filter (fun l => !(l.type == LineKind.add))).map
          (fun l => ⟨LineKind.context, l.content⟩) := by
  intro ls
  induction ls with
  | nil => intro n _; simp [editLinesGo]
  | cons l rest ih =>
    intro n hS
    have hHead := hS 0 l (by simp)
    have hTail : ∀ j x, rest.get? j = some x →
        (x.type = LineKind.add → (n + 1 + j) ∈ A) ∧
        (x.type = LineKind.remove → (n + 1 + j) ∈ R) := by
      intro j x hx
      have := hS (j + 1) x (by simpa using hx)
      have he : n + (j + 1) = n + 1 + j := by omega
      rw [he] at this
      exact this
    cases hl : l.type with
    | add =>
      rw [editLinesGo_cons_add A R l rest n hl,
        if_pos (by simpa using (hHead.1 hl)), ih (n + 1) hTail]
      simp [List.filter_cons, hl]
    | remove =>
      rw [editLinesGo_cons_remove A R l rest n hl,
        if_pos (by simpa using (hHead.2 hl)), ih (n + 1) hTail]
      simp [List.filter_cons, hl]
    | context =>
      rw [editLinesGo_cons_context A R l rest n hl, ih (n + 1) hTail]
      have hfil : (!(l.type == LineKind.add)) = true := by simp [hl]
      simp only [List.filter_cons, hfil, if_pos, List.map_cons]
      congr 1
      cases l with
      | mk t c =>
        have ht : t = LineKind.context := hl
        rw [ht]

/-- C10 (confirmed): a Partial selection with empty or absent include sets is
not skipped.  The executor builds the all-context edit (every addition
dropped, every removal demoted), generates its patch, submits it to the VCS
check and apply steps, and appends the hunk id on success. -/
theorem C10_empty_partial_not_skipped :
    ∀ {σ : Type} (vcs : VCS σ) (s : σ) (diff : ParsedDiff) (msg : Str)
      (co : Option (List Compensation)) (sel : HunkSelection)
      (rest : List HunkSelection) (hk : Hunk),
      sel.mode = SelMode.mixed →
      (sel.includeAdditions = Option.none ∨ sel.includeAdditions = some []) →
      (sel.includeRemovals = Option.none ∨ sel.includeRemovals = some []) →
      (sel.lineEdits = Option.none ∨ sel.lineEdits = some []) →
      diff.getHunk sel.hunkId = some hk →
      (editHunk hk ⟨addedIdx hk.lines, removedIdx hk.lines⟩).lines =
        (hk.lines.filter (fun l => !(l.type == LineKind.add))).map
          (fun l => ⟨LineKind.context, l.content⟩) ∧
      selectionPatch hk sel =
        generatePatch [editHunk hk ⟨addedIdx hk.lines, removedIdx hk.lines⟩] ∧
      (∀ e, vcs.check s (selectionPatch hk sel) = ⟨false, e⟩ →
        executeStagingPlan vcs s diff ⟨msg, sel :: rest, co⟩ =
          (s, ⟨false, some ("Patch for ".toList ++ sel.hunkId ++ " won't apply: ".toList ++ e),
               []⟩)) ∧
      ((vcs.check s (selectionPatch hk sel)).applies = true →
        (vcs.apply s (selectionPatch hk sel)).2.success = true →
        executeStagingPlan vcs s diff ⟨msg, sel :: rest, co⟩ =
          execGo vcs diff rest (vcs.apply s (selectionPatch hk sel)).1 [sel.hunkId]) := by
  intro σ vcs s diff msg co sel rest hk hmode hadds hrems _ hget
  have hlines : (editHunk hk ⟨addedIdx hk.lines, removedIdx hk.lines⟩).lines =
      (hk.lines.filter (fun l => !(l.type == LineKind.add))).map
        (fun l => ⟨LineKind.context, l.content⟩) := by
    show editLinesGo (addedIdx hk.lines) (removedIdx hk.lines) hk.lines 0 = _
    apply editLinesGo_all
    intro j x hx
    constructor
    · intro hadd
      simp only [Nat.zero_add]
      exact (mem_addedIdx hk.lines j).mpr ⟨x, hx, hadd⟩
    · intro hrem
      simp only [Nat.zero_add]
      exact (mem_removedIdx hk.lines j).mpr ⟨x, hx, hrem⟩
  have hmode' : ¬ sel.mode = SelMode.all := by rw [hmode]; simp
  have hmode'' : ¬ sel.mode = SelMode.none := by rw [hmode]; simp
  have hgetdA : sel.includeAdditions.getD [] = [] := by
    rcases hadds with h | h <;> rw [h] <;> rfl
  have hgetdR : sel.includeRemovals.getD [] = [] := by
    rcases hrems with h | h <;> rw [h] <;> rfl
  have hpatch : selectionPatch hk sel =
      generatePatch [editHunk hk ⟨addedIdx hk.lines, removedIdx hk.lines⟩] := by
    unfold selectionPatch
    rw [if_neg (by intro hcon; exact hmode' hcon.1)]
    simp only [if_neg hmode', hgetdA, hgetdR]
    have hfA : (addedIdx hk.lines).filter (fun i => !(([] : List Nat).contains i)) =
        addedIdx hk.lines := by simp
    have hfR : (removedIdx hk.lines).filter (fun i => !(([] : List Nat).contains i)) =
        removedIdx hk.lines := by simp
    rw [hfA, hfR]
  refine ⟨hlines, hpatch, ?_, ?_⟩
  · intro e hchk
    show execGo vcs diff (sel :: rest) s [] = _
    rw [execGo, if_neg hmode'', hget]
    simp only [hchk]
    rfl
  · intro hchk hap
    show execGo vcs diff (sel :: rest) s [] = _
    rw [execGo, if_neg hmode'', hget]
    simp only []
    have h1 : ((vcs.check s (selectionPatch hk sel)).applies = false) = False := by
      simp [hchk]
    have h2 : ((vcs.apply s (selectionPatch hk sel)).2.success = false) = False := by
      simp [hap]
    simp only [h1, if_false, h2]
    rfl

/-- The diff text used by the executor witnesses. -/
def wDiffText : Str :=
  "diff --git a/file.txt b/file.txt\n--- a/file.txt\n+++ b/file.txt\n@@ -1,3 +1,3 @@\n line 1\n-old\n+new\n line 3\n".toList

def wDiff : ParsedDiff := parseDiff wDiffText

/-- A VCS model for witnesses: every patch applies, and applying records the
patch text in the state. -/
def wVCS : VCS (List Str) :=
  { check := fun _ _ => ⟨true, []⟩, apply := fun s p => (s ++ [p], ⟨true, []⟩) }

def wSelC10 : HunkSelection :=
  ⟨"file.txt:0".toList, SelMode.mixed, Option.none, Option.none, Option.none, Option.none⟩

def wHunkC10 : Hunk :=
  { id := "file.txt:0".toList, file := "file.txt".toList, index := 0,
    header := "@@ -1,3 +1,3 @@".toList, oldStart := 1, oldCount := 3,
    newStart := 1, newCount := 3,
    lines := [⟨LineKind.context, "line 1".toList⟩, ⟨LineKind.remove, "old".toList⟩,
              ⟨LineKind.add, "new".toList⟩, ⟨LineKind.context, "line 3".toList⟩],
    context := none }

/-- Witness for C10 at a concrete diff, selection and VCS. -/
theorem C10_empty_partial_not_skipped_witness :
    executeStagingPlan wVCS ([] : List Str) wDiff
        ⟨"m".toList, [wSelC10], Option.none⟩ =
      ([generatePatch [editHunk wHunkC10 ⟨addedIdx wHunkC10.lines, removedIdx wHunkC10.lines⟩]],
       ⟨true, Option.none, ["file.txt:0".toList]⟩) := by
  have h := C10_empty_partial_not_skipped wVCS ([] : List Str) wDiff "m".toList Option.none
    wSelC10 [] wHunkC10 rfl (Or.inl rfl) (Or.inl rfl) (Or.inl rfl) (by decide)
  have h4 := h.2.2.2 (by decide) (by decide)
  rw [h4]
  decide

/-! ### C5: executor halts at the first missing hunk -/

/-- Executing a concatenation runs the prefix first and continues (state and
staged list carried over) only if the prefix succeeded. -/
theorem execGo_append {σ : Type} (vcs : VCS σ) (diff : ParsedDiff) :
    ∀ (pre rest : List HunkSelection) (s : σ) (staged : List Str),
      execGo vcs diff (pre ++ rest) s staged =
        (if (execGo vcs diff pre s staged).2.success = true
         then execGo vcs diff rest (execGo vcs diff pre s staged).1
                (execGo vcs diff pre s staged).2.stagedHunks
         else execGo vcs diff pre s staged) := by
  intro pre
  induction pre with
  | nil => intro rest s staged; simp [execGo]
  | cons sel pre' ih =>
    intro rest s staged
    simp only [List.cons_append, execGo]
    by_cases hmode : sel.mode = SelMode.none
    · simp only [if_pos hmode]
      exact ih rest s staged
    · simp only [if_neg hmode]
      cases hget : diff.getHunk sel.hunkId with
      | none => simp
      | some hk =>
        simp only []
        by_cases hchk : ((vcs.check s (selectionPatch hk sel)).applies = false)
        · simp [hchk]
        · simp only [if_neg hchk]
          by_cases hap : ((vcs.apply s (selectionPatch hk sel)).2.success = false)
          · simp [hap]
          · simp only [if_neg hap]
            exact ih rest _ _

/-- C5 (confirmed): when all selections before `sel` succeed and `sel`'s hunk
id is not found, execution stops there with the exact error, reports exactly
the previously staged ids, leaves the index state as after the prefix, and
never looks at the later selections. -/
theorem C5_halts_on_missing_hunk :
    ∀ {σ : Type} (vcs : VCS σ) (s : σ) (diff : ParsedDiff) (msg : Str)
      (co : Option (List Compensation)) (pre post : List HunkSelection) (sel : HunkSelection),
      (executeStagingPlan vcs s diff ⟨msg, pre, co⟩).2.success = true →
      sel.mode ≠ SelMode.none →
      diff.getHunk sel.hunkId = Option.none →
      executeStagingPlan vcs s diff ⟨msg, pre ++ sel :: post, co⟩ =
        ((executeStagingPlan vcs s diff ⟨msg, pre, co⟩).1,
         { success := false,
           error := some ("Hunk not found: ".toList ++ sel.hunkId),
           stagedHunks := (executeStagingPlan vcs s diff ⟨msg, pre, co⟩).2.stagedHunks }) := by
  intro σ vcs s diff msg co pre post sel hpre hmode hget
  show execGo vcs diff (pre ++ sel :: post) s [] = _
  rw [execGo_append vcs diff pre (sel :: post) s []]
  have hpre' : (execGo vcs diff pre s []).2.success = true := hpre
  rw [if_pos hpre']
  rw [execGo, if_neg hmode, hget]
  rfl

def wPreC5 : List HunkSelection :=
  [⟨"file.txt:0".toList, SelMode.all, Option.none, Option.none, Option.none, Option.none⟩]

def wSelC5 : HunkSelection :=
  ⟨"missing:1".toList, SelMode.all, Option.none, Option.none, Option.none, Option.none⟩

def wPostC5 : List HunkSelection :=
  [⟨"file.txt:0".toList, SelMode.all, Option.none, Option.none, Option.none, Option.none⟩]

/-- Witness for C5: the S6 scenario — three selections, the second's id does
not exist; only the first id is staged and the error names the missing id. -/
theorem C5_halts_on_missing_hunk_witness :
    executeStagingPlan wVCS ([] : List Str) wDiff
        ⟨"m".toList, wPreC5 ++ wSelC5 :: wPostC5, Option.none⟩ =
      ((executeStagingPlan wVCS ([] : List Str) wDiff ⟨"m".toList, wPreC5, Option.none⟩).1,
       ⟨false, some "Hunk not found: missing:1".toList, ["file.txt:0".toList]⟩) := by
  rw [C5_halts_on_missing_hunk wVCS ([] : List Str) wDiff "m".toList Option.none
    wPreC5 wPostC5 wSelC5 (by decide) (by decide) (by decide)]
  decide

/-! ### C7: `[E]`/EDIT is recorded by the parser but never resolved -/

/-- A plan document with an `[E]`-marked addition and a matching EDIT
directive. -/
def c7Doc : Str :=
  ("Commit message: c7\n\n### g.txt:0\n\n[ ] Include entire hunk\n\n```\n    [ 0]   line 1\n[E] [ 1] + new\n    [ 2]   line 2\n```\n\nEDIT [1]: edited\n").toList

def c7DiffText : Str :=
  "diff --git a/g.txt b/g.txt\n--- a/g.txt\n+++ b/g.txt\n@@ -1,2 +1,3 @@\n line 1\n+new\n line 2\n".toList

/-- C7: the parser registers index 1 as an included addition and records the
line edit (`newContent = "edited"`), but the executor's patch is exactly the
original diff text — the `+new` line is emitted unchanged, `newContent` is
never resolved into the patch. -/
theorem C7_edit_recorded_but_not_resolved :
    (parseStagingPlanDocument c7Doc Option.none).selections =
      [⟨"g.txt:0".toList, SelMode.mixed, some [1], Option.none,
        some [⟨1, "edited".toList⟩], Option.none⟩] ∧
    executeStagingPlan wVCS ([] : List Str) (parseDiff c7DiffText)
        (parseStagingPlanDocument c7Doc Option.none) =
      ([c7DiffText], ⟨true, Option.none, ["g.txt:0".toList]⟩) := by
  decide

/-! ### C8: checkbox case sensitivity -/

/-- Congruence of a fold whose inputs differ in one position where the step
function agrees. -/
theorem foldl_middle_congr {α β : Type} (f : β → α → β) (pre post : List α) (a b : α)
    (h : ∀ s, f s a = f s b) (init : β) :
    List.foldl f init (pre ++ a :: post) = List.foldl f init (pre ++ b :: post) := by
  rw [List.foldl_append, List.foldl_append, List.foldl_cons, List.foldl_cons, h]

/-- Congruence of `findSome?` whose inputs differ in one position where the
function agrees. -/
theorem findSome?_middle_congr {α β : Type} (f : α → Option β) (pre post : List α) (a b : α)
    (h : f a = f b) :
    List.findSome? f (pre ++ a :: post) = List.findSome? f (pre ++ b :: post) := by
  induction pre with
  | nil => simp only [List.nil_append, List.findSome?_cons, h]
  | cons x xs ih =>
    simp only [List.cons_append, List.findSome?_cons]
    cases f x with
    | some v => rfl
    | none => exact ih

/-- Lines that never begin a COMPENSATE block are skipped by the
compensation parser. -/
theorem parseCompsGo_skip :
    ∀ (pre : List Str) (fuel : Nat) (rest : List Str) (acc : List Compensation),
      (∀ l ∈ pre, compHeaderMatch l = Option.none) →
      parseCompsGo (pre.length + fuel) (pre ++ rest) acc = parseCompsGo fuel rest acc := by
  intro pre
  induction pre with
  | nil => intro fuel rest acc _; simp
  | cons l pre' ih =>
    intro fuel rest acc hpre
    have hl : compHeaderMatch l = Option.none := hpre l (by simp)
    have hlen : (l :: pre').length + fuel = (pre'.length + fuel) + 1 := by simp; omega
    rw [hlen]
    simp only [List.cons_append, parseCompsGo, hl]
    exact ih fuel rest acc (fun x hx => hpre x (by simp [hx]))

/-- The two entire-hunk checkbox lines differing only in the case of the `x`
are matched identically. -/
theorem entireHunkMatch_xX (r : Str) :
    entireHunkMatch ('[' :: 'X' :: ']' :: r) = entireHunkMatch ('[' :: 'x' :: ']' :: r) := by
  simp only [entireHunkMatch]
  rw [if_pos (show 'X'.toLower = 'x' by decide), if_pos (show 'x'.toLower = 'x' by decide)]

/-- The two `[E]` marker lines differing only in the case of the `e` are
matched identically. -/
theorem editMarkMatch_Ee (r : Str) :
    editMarkMatch ('[' :: 'E' :: ']' :: r) = editMarkMatch ('[' :: 'e' :: ']' :: r) := by
  simp only [editMarkMatch]
  rw [if_pos (show 'E'.toLower = 'e' by decide), if_pos (show 'e'.toLower = 'e' by decide)]

theorem parseCompsGo_cons_none (l : Str) (rest : List Str) (fuel : Nat)
    (acc : List Compensation) (h : compHeaderMatch l = Option.none) :
    parseCompsGo (fuel + 1) (l :: rest) acc = parseCompsGo fuel rest acc := by
  simp only [parseCompsGo, h]

/-- `parsePlanLines` is determined by its four passes. -/
theorem parsePlanLines_congr (A B : List Str) (diff : Option ParsedDiff)
    (hmsg : commitMsgOf A = commitMsgOf B)
    (hfm : preSelections diff (fileLevelMap A) = preSelections diff (fileLevelMap B))
    (hfold : ∀ init, A.foldl planStep init = B.foldl planStep init)
    (hcomp : parseCompensations A = parseCompensations B) :
    parsePlanLines A diff = parsePlanLines B diff := by
  simp only [parsePlanLines]
  rw [hmsg, hfm, hcomp, hfold]

/-- In the x/X entire-hunk case the per-hunk loop treats both lines alike. -/
theorem planStep_xX (r : Str) (hE : entireHunkMatch ('[' :: 'x' :: ']' :: r) = true) :
    ∀ st, planStep st ('[' :: 'x' :: ']' :: r) = planStep st ('[' :: 'X' :: ']' :: r) := by
  intro st
  have h1 : hunkHeadMatch ('[' :: 'x' :: ']' :: r) = Option.none := rfl
  have h2 : hunkHeadMatch ('[' :: 'X' :: ']' :: r) = Option.none := rfl
  have hE' : entireHunkMatch ('[' :: 'X' :: ']' :: r) = true := by
    rw [entireHunkMatch_xX]; exact hE
  simp only [planStep, h1, h2, hE, hE', if_true]

/-- In the E/e case the per-hunk loop treats both lines alike. -/
theorem planStep_Ee (r : Str) :
    ∀ st, planStep st ('[' :: 'E' :: ']' :: r) = planStep st ('[' :: 'e' :: ']' :: r) := by
  intro st
  have h1 : hunkHeadMatch ('[' :: 'E' :: ']' :: r) = Option.none := rfl
  have h2 : hunkHeadMatch ('[' :: 'e' :: ']' :: r) = Option.none := rfl
  have h3 : entireHunkMatch ('[' :: 'E' :: ']' :: r) = false := by
    simp only [entireHunkMatch]
    rw [if_neg (show ¬ 'E'.toLower = 'x' by decide)]
  have h4 : entireHunkMatch ('[' :: 'e' :: ']' :: r) = false := by
    simp only [entireHunkMatch]
    rw [if_neg (show ¬ 'e'.toLower = 'x' by decide)]
  have h5 : strHasPre "```".toList ('[' :: 'E' :: ']' :: r) = false := rfl
  have h6 : strHasPre "```".toList ('[' :: 'e' :: ']' :: r) = false := rfl
  have h7 : selMatch '+' ('[' :: 'E' :: ']' :: r) = Option.none := rfl
  have h8 : selMatch '+' ('[' :: 'e' :: ']' :: r) = Option.none := rfl
  have h9 : selMatch '-' ('[' :: 'E' :: ']' :: r) = Option.none := rfl
  have h10 : selMatch '-' ('[' :: 'e' :: ']' :: r) = Option.none := rfl
  have h11 : editDirectiveMatch ('[' :: 'E' :: ']' :: r) = Option.none := rfl
  have h12 : editDirectiveMatch ('[' :: 'e' :: ']' :: r) = Option.none := rfl
  simp only [planStep, h1, h2, h3, h4, h5, h6, h7, h8, h9, h10, h11, h12,
    editMarkMatch_Ee, Bool.false_eq_true, if_false]

/-- C8 (amended): case-insensitivity holds exactly where the source uses the
`/i` flag — the `[x] Include entire hunk` checkbox (x vs X, for the
document-only parse) and the `[E]` marker (E vs e) — provided no preceding
line opens a COMPENSATE block (whose content capture is case-sensitive).
Per-line selection checkboxes and file-level checkboxes are
lowercase-only. -/
theorem C8_checkbox_case_insensitivity :
    (∀ (pre post : List Str) (r : Str),
      (∀ l ∈ pre, compHeaderMatch l = Option.none) →
      entireHunkMatch ('[' :: 'x' :: ']' :: r) = true →
      parsePlanLines (pre ++ ('[' :: 'x' :: ']' :: r) :: post) Option.none =
        parsePlanLines (pre ++ ('[' :: 'X' :: ']' :: r) :: post) Option.none) ∧
    (∀ (pre post : List Str) (r : Str) (diff : Option ParsedDiff),
      (∀ l ∈ pre, compHeaderMatch l = Option.none) →
      parsePlanLines (pre ++ ('[' :: 'E' :: ']' :: r) :: post) diff =
        parsePlanLines (pre ++ ('[' :: 'e' :: ']' :: r) :: post) diff) := by
  constructor
  · intro pre post r hpre hE
    apply parsePlanLines_congr
    · unfold commitMsgOf
      rw [findSome?_middle_congr msgMatch pre post ('[' :: 'x' :: ']' :: r)
        ('[' :: 'X' :: ']' :: r) rfl]
    · rfl
    · intro init
      exact foldl_middle_congr planStep pre post _ _ (planStep_xX r hE) init
    · unfold parseCompensations
      have hlA : (pre ++ ('[' :: 'x' :: ']' :: r) :: post).length =
          pre.length + (post.length + 1) := by simp
      have hlB : (pre ++ ('[' :: 'X' :: ']' :: r) :: post).length =
          pre.length + (post.length + 1) := by simp
      rw [hlA, hlB, parseCompsGo_skip pre _ _ [] hpre, parseCompsGo_skip pre _ _ [] hpre,
        parseCompsGo_cons_none ('[' :: 'x' :: ']' :: r) post post.length []
          (show compHeaderMatch ('[' :: 'x' :: ']' :: r) = Option.none from rfl),
        parseCompsGo_cons_none ('[' :: 'X' :: ']' :: r) post post.length []
          (show compHeaderMatch ('[' :: 'X' :: ']' :: r) = Option.none from rfl)]
  · intro pre post r diff hpre
    apply parsePlanLines_congr
    · unfold commitMsgOf
      rw [findSome?_middle_congr msgMatch pre post ('[' :: 'E' :: ']' :: r)
        ('[' :: 'e' :: ']' :: r) rfl]
    · have hfm : fileLevelMap (pre ++ ('[' :: 'E' :: ']' :: r) :: post) =
          fileLevelMap (pre ++ ('[' :: 'e' :: ']' :: r) :: post) := by
        unfold fileLevelMap
        exact foldl_middle_congr fileLevelStep pre post ('[' :: 'E' :: ']' :: r)
          ('[' :: 'e' :: ']' :: r) (fun m => rfl) []
      rw [hfm]
    · intro init
      exact foldl_middle_congr planStep pre post _ _ (planStep_Ee r) init
    · unfold parseCompensations
      have hlA : (pre ++ ('[' :: 'E' :: ']' :: r) :: post).length =
          pre.length + (post.length + 1) := by simp
      have hlB : (pre ++ ('[' :: 'e' :: ']' :: r) :: post).length =
          pre.length + (post.length + 1) := by simp
      rw [hlA, hlB, parseCompsGo_skip pre _ _ [] hpre, parseCompsGo_skip pre _ _ [] hpre,
        parseCompsGo_cons_none ('[' :: 'E' :: ']' :: r) post post.length []
          (show compHeaderMatch ('[' :: 'E' :: ']' :: r) = Option.none from rfl),
        parseCompsGo_cons_none ('[' :: 'e' :: ']' :: r) post post.length []
          (show compHeaderMatch ('[' :: 'e' :: ']' :: r) = Option.none from rfl)]

/-- C8, as stated, is false: changing a per-line selection checkbox from
`[x]` to `[X]` changes the parse (the per-line pattern has no `/i` flag). -/
theorem C8_counterexample :
    parseStagingPlanDocument
        ("Commit message: t\n\n### f.txt:0\n\n```\n[x] [ 0] + a\n```\n").toList Option.none ≠
      parseStagingPlanDocument
        ("Commit message: t\n\n### f.txt:0\n\n```\n[X] [ 0] + a\n```\n").toList Option.none := by
  decide

/-- Witness for C8: both amended equivalences at concrete documents. -/
theorem C8_checkbox_case_insensitivity_witness :
    parsePlanLines ["### f.txt:0".toList, "[x] Include entire hunk".toList] Option.none =
      parsePlanLines ["### f.txt:0".toList, "[X] Include entire hunk".toList] Option.none ∧
    parsePlanLines ["### f.txt:0".toList, "```".toList, "[E] [ 0] + a".toList, "```".toList]
        Option.none =
      parsePlanLines ["### f.txt:0".toList, "```".toList, "[e] [ 0] + a".toList, "```".toList]
        Option.none :=
  ⟨C8_checkbox_case_insensitivity.1 ["### f.txt:0".toList] [] (" Include entire hunk".toList)
      (by decide) (by decide),
   C8_checkbox_case_insensitivity.2 ["### f.txt:0".toList, "```".toList] ["```".toList]
      (" [ 0] + a".toList) Option.none (by decide)⟩

/-! ### C9: hunk id uniqueness -/

/-- First-occurrence uniqueness of a separator. -/
theorem sepFirst {c : Char} :
    ∀ (as as' bs bs' : Str), as ++ c :: bs = as' ++ c :: bs' →
      (∀ x ∈ as, x ≠ c) → (∀ x ∈ as', x ≠ c) → as = as' ∧ bs = bs' := by
  intro as
  induction as with
  | nil =>
    intro as' bs bs' h _ h2
    cases as' with
    | nil => simpa using h
    | cons a' t' =>
      exfalso
      simp only [List.nil_append, List.cons_append, List.cons.injEq] at h
      exact (h2 a' (by simp)) h.1.symm
  | cons a t ih =>
    intro as' bs bs' h h1 h2
    cases as' with
    | nil =>
      exfalso
      simp only [List.nil_append, List.cons_append, List.cons.injEq] at h
      exact (h1 a (by simp)) h.1
    | cons a' t' =>
      simp only [List.cons_append, List.cons.injEq] at h
      obtain ⟨rfl, h'⟩ := h
      obtain ⟨he, hb⟩ := ih t' bs bs' h' (fun x hx => h1 x (by simp [hx]))
        (fun x hx => h2 x (by simp [hx]))
      exact ⟨by rw [he], hb⟩

/-- Last-occurrence uniqueness of a separator: if the parts after it avoid
the separator, the split is unique. -/
theorem sepLast {c : Char} (p1 p2 d1 d2 : Str) (h : p1 ++ c :: d1 = p2 ++ c :: d2)
    (h1 : ∀ x ∈ d1, x ≠ c) (h2 : ∀ x ∈ d2, x ≠ c) : p1 = p2 ∧ d1 = d2 := by
  have hr : d1.reverse ++ c :: p1.reverse = d2.reverse ++ c :: p2.reverse := by
    have := congrArg List.reverse h
    simpa [List.reverse_append] using this
  obtain ⟨hd, hp⟩ := sepFirst d1.reverse d2.reverse p1.reverse p2.reverse hr
    (fun x hx => h1 x (by simpa using hx)) (fun x hx => h2 x (by simpa using hx))
  constructor
  · have := congrArg List.reverse hp
    simpa using this
  · have := congrArg List.reverse hd
    simpa using this

/-- The id list of a file with `n` hunks. -/
def idsOf (p : Str) (n : Nat) : List Str :=
  (List.range n).map (fun i => p ++ ':' :: natStr i)

/-- The id builder is injective in the index for a fixed path. -/
theorem idOf_inj (p : Str) (i j : Nat) (h : p ++ ':' :: natStr i = p ++ ':' :: natStr j) :
    i = j := by
  have h' : (':' :: natStr i : Str) = ':' :: natStr j := List.append_cancel_left h
  simp only [List.cons.injEq, true_and] at h'
  exact natStr_injective h'

theorem idsOf_nodup (p : Str) (n : Nat) : (idsOf p n).Nodup := by
  apply List.Nodup.map_on
  · intro i _ j _ h
    exact idOf_inj p i j h
  · exact List.nodup_range n

/-- Ids built from different paths never coincide (the digits after the last
colon pin the path down). -/
theorem idOf_path_eq (p q : Str) (i j : Nat)
    (h : p ++ ':' :: natStr i = q ++ ':' :: natStr j) : p = q := by
  have hd1 : ∀ x ∈ natStr i, x ≠ ':' := by
    intro x hx
    have := mem_natStr_isDigit i x hx
    intro hcon
    rw [hcon] at this
    exact absurd this (by decide)
  have hd2 : ∀ x ∈ natStr j, x ≠ ':' := by
    intro x hx
    have := mem_natStr_isDigit j x hx
    intro hcon
    rw [hcon] at this
    exact absurd this (by decide)
  exact (sepLast p q (natStr i) (natStr j) h hd1 hd2).1

/-- Invariant of an in-progress file: closed hunks carry the canonical ids
`0..n-1`, the in-progress hunk carries id `n`, and the running index counts
all hunks seen. -/
def CInv (c : CurFile) : Prop :=
  c.hunks.map (fun h => h.id) = idsOf c.newPath c.hunks.length ∧
  (∀ hk, c.curHunk = some hk → hk.id = c.newPath ++ ':' :: natStr c.hunks.length) ∧
  c.hunkIndex = c.hunks.length + c.curHunk.toList.length

/-- Invariant of a finished file. -/
def FInv (f : FileDiff) : Prop :=
  f.hunks.map (fun h => h.id) = idsOf f.newPath f.hunks.length

def PInv (st : PState) : Prop :=
  (∀ f ∈ st.files, FInv f) ∧ (∀ c, st.cur = some c → CInv c)

/-- Flushing the in-progress hunk extends the canonical id list by one. -/
theorem flush_ids (c : CurFile) (hc : CInv c) :
    (c.hunks ++ c.curHunk.toList).map (fun h => h.id) =
      idsOf c.newPath (c.hunks ++ c.curHunk.toList).length := by
  obtain ⟨h1, h2, _⟩ := hc
  cases hcur : c.curHunk with
  | none => simpa using h1
  | some hk =>
    have hid := h2 hk hcur
    simp only [hcur, Option.toList_some, List.map_append, List.length_append, h1,
      List.map_cons, List.map_nil, hid, List.length_cons, List.length_nil]
    unfold idsOf
    rw [show c.hunks.length + (0 + 1) = Nat.succ c.hunks.length by omega, List.range_succ]
    simp

theorem close_FInv (c : CurFile) (hc : CInv c) : FInv c.close :=
  flush_ids c hc

/-- Unfolding `hunkLineStep` on a hunk-header line. -/
theorem hunkLineStep_hdr (c : CurFile) (l : Str) (os oc ns nc : Nat) (raw : Str)
    (hm : matchHunkHeader l = some (os, oc, ns, nc, raw)) :
    hunkLineStep c l =
      { c with hunks := c.hunks ++ c.curHunk.toList,
               curHunk := some
                 { id := c.newPath ++ ':' :: natStr c.hunkIndex,
                   file := c.newPath, index := c.hunkIndex, header := l,
                   oldStart := os, oldCount := oc, newStart := ns, newCount := nc,
                   lines := [], context := ctxOpt raw },
               hunkIndex := c.hunkIndex + 1 } := by
  unfold hunkLineStep
  rw [hm]

/-- Unfolding `hunkLineStep` on a body line while a hunk is open. -/
theorem hunkLineStep_body (c : CurFile) (hk : Hunk) (ch : Char) (cs : Str)
    (hm : matchHunkHeader (ch :: cs) = Option.none) (hcur : c.curHunk = some hk) :
    hunkLineStep c (ch :: cs) =
      (if ch = ' ' then
        { c with curHunk := some { hk with lines := hk.lines ++ [⟨LineKind.context, cs⟩] } }
      else if ch = '-' then
        { c with curHunk := some { hk with lines := hk.lines ++ [⟨LineKind.remove, cs⟩] } }
      else if ch = '+' then
        { c with curHunk := some { hk with lines := hk.lines ++ [⟨LineKind.add, cs⟩] } }
      else c) := by
  unfold hunkLineStep
  rw [hm, hcur]

/-- Unfolding `hunkLineStep` on an empty line while a hunk is open. -/
theorem hunkLineStep_nil_line (c : CurFile) (hk : Hunk)
    (hm : matchHunkHeader [] = Option.none) (hcur : c.curHunk = some hk) :
    hunkLineStep c [] = c := by
  unfold hunkLineStep
  rw [hm, hcur]

/-- Unfolding `hunkLineStep` on a non-header line with no open hunk. -/
theorem hunkLineStep_noHunk (c : CurFile) (l : Str)
    (hm : matchHunkHeader l = Option.none) (hcur : c.curHunk = Option.none) :
    hunkLineStep c l = c := by
  unfold hunkLineStep
  rw [hm, hcur]

theorem hunkLineStep_CInv (c : CurFile) (l : Str) (hc : CInv c) : CInv (hunkLineStep c l) := by
  obtain ⟨h1, h2, h3⟩ := hc
  cases hm : matchHunkHeader l with
  | some v =>
    obtain ⟨os, oc, ns, nc, raw⟩ := v
    rw [hunkLineStep_hdr c l os oc ns nc raw hm]
    refine ⟨flush_ids c ⟨h1, h2, h3⟩, ?_, ?_⟩
    · intro hk hhk
      simp only [Option.some.injEq] at hhk
      subst hhk
      simp only [List.length_append]
      congr 2
      rw [h3]
    · simp only [List.length_append, Option.toList_some, List.length_cons, List.length_nil]
      rw [h3]
  | none =>
    cases hcur : c.curHunk with
    | none =>
      rw [hunkLineStep_noHunk c l hm hcur]
      exact ⟨h1, h2, h3⟩
    | some hk =>
      have hid := h2 hk hcur
      have h3' : c.hunkIndex = c.hunks.length + 1 := by rw [h3, hcur]; rfl
      have hbody : ∀ (nl : List DiffLine),
          CInv { c with curHunk := some { hk with lines := nl } } := by
        intro nl
        refine ⟨h1, ?_, ?_⟩
        · intro hk' hhk'
          simp only [Option.some.injEq] at hhk'
          rw [← hhk']
          exact hid
        · simpa using h3'
      cases l with
      | nil =>
        rw [hunkLineStep_nil_line c hk hm hcur]
        exact ⟨h1, h2, h3⟩
      | cons ch cs =>
        rw [hunkLineStep_body c hk ch cs hm hcur]
        by_cases hs1 : ch = ' '
        · rw [if_pos hs1]; exact hbody _
        · rw [if_neg hs1]
          by_cases hs2 : ch = '-'
          · rw [if_pos hs2]; exact hbody _
          · rw [if_neg hs2]
            by_cases hs3 : ch = '+'
            · rw [if_pos hs3]; exact hbody _
            · rw [if_neg hs3]; exact ⟨h1, h2, h3⟩

/-- Unfolding `parseStep` on a file-header line. -/
theorem parseStep_fileHdr (st : PState) (l : Str) (op np : Str)
    (hm : matchFileHeader l = some (op, np)) :
    parseStep st l =
      { files := st.files ++ closeOpt st.cur,
        cur := some { oldPath := op, newPath := np, isNew := false, isDeleted := false,
                      isRenamed := decide (op ≠ np), hunks := [], curHunk := Option.none,
                      hunkIndex := 0, metaMode := true } } := by
  unfold parseStep
  rw [hm]

/-- Unfolding `parseStep` on a non-header line with no current file. -/
theorem parseStep_noCur (st : PState) (l : Str)
    (hm : matchFileHeader l = Option.none) (hcur : st.cur = Option.none) :
    parseStep st l = st := by
  unfold parseStep
  rw [hm, hcur]

/-- Unfolding `parseStep` on a non-header line with a current file. -/
theorem parseStep_cur (st : PState) (l : Str) (c : CurFile)
    (hm : matchFileHeader l = Option.none) (hcur : st.cur = some c) :
    parseStep st l =
      (if c.metaMode = true then
        (if strHasPre "new file mode".toList l then
          { st with cur := some { c with isNew := true } }
        else if strHasPre "deleted file mode".toList l then
          { st with cur := some { c with isDeleted := true } }
        else if isOtherMeta l then st
        else { st with cur := some (hunkLineStep { c with metaMode := false } l) })
      else { st with cur := some (hunkLineStep c l) }) := by
  unfold parseStep
  rw [hm, hcur]

theorem parseStep_PInv (st : PState) (l : Str) (hp : PInv st) : PInv (parseStep st l) := by
  obtain ⟨hf, hc⟩ := hp
  cases hm : matchFileHeader l with
  | some v =>
    obtain ⟨op, np⟩ := v
    rw [parseStep_fileHdr st l op np hm]
    constructor
    · intro f hfm
      rcases List.mem_append.mp hfm with h | h
      · exact hf f h
      · cases hcur : st.cur with
        | none => rw [hcur] at h; simp [closeOpt] at h
        | some c =>
          rw [hcur] at h
          simp only [closeOpt, List.mem_singleton] at h
          subst h
          exact close_FInv c (hc c hcur)
    · intro c hcc
      simp only [Option.some.injEq] at hcc
      subst hcc
      refine ⟨rfl, ?_, rfl⟩
      intro hk h
      simp at h
  | none =>
    cases hcur : st.cur with
    | none =>
      rw [parseStep_noCur st l hm hcur]
      exact ⟨hf, hc⟩
    | some c =>
      rw [parseStep_cur st l c hm hcur]
      have hcInv := hc c hcur
      have hkeep : ∀ (c' : CurFile), CInv c' →
          PInv { files := st.files, cur := some c' } := by
        intro c' hci
        refine ⟨hf, ?_⟩
        intro c'' hcc
        simp only [Option.some.injEq] at hcc
        subst hcc
        exact hci
      by_cases hmeta : c.metaMode = true
      · rw [if_pos hmeta]
        by_cases hn : strHasPre "new file mode".toList l
        · rw [if_pos hn]
          exact hkeep _ hcInv
        · rw [if_neg hn]
          by_cases hd : strHasPre "deleted file mode".toList l
          · rw [if_pos hd]
            exact hkeep _ hcInv
          · rw [if_neg hd]
            by_cases ho : isOtherMeta l
            · rw [if_pos ho]
              exact ⟨hf, hc⟩
            · rw [if_neg ho]
              exact hkeep _ (hunkLineStep_CInv { c with metaMode := false } l hcInv)
      · rw [if_neg hmeta]
        exact hkeep _ (hunkLineStep_CInv c l hcInv)

theorem foldl_parseStep_PInv (ls : List Str) :
    ∀ (st : PState), PInv st → PInv (ls.foldl parseStep st) := by
  induction ls with
  | nil => intro st hp; exact hp
  | cons l rest ih =>
    intro st hp
    exact ih _ (parseStep_PInv st l hp)

/-- Every file produced by `parseDiff` carries the canonical id list. -/
theorem parseDiff_FInv (s : Str) : ∀ f ∈ (parseDiff s).files, FInv f := by
  intro f hfm
  have hp : PInv ((splitNl s).foldl parseStep { files := [], cur := Option.none }) :=
    foldl_parseStep_PInv _ _ ⟨by intro f h; simp at h, by intro c h; simp at h⟩
  obtain ⟨hf, hc⟩ := hp
  have hfm' : f ∈ ((splitNl s).foldl parseStep { files := [], cur := Option.none }).files ++
      closeOpt ((splitNl s).foldl parseStep { files := [], cur := Option.none }).cur := hfm
  rcases List.mem_append.mp hfm' with h | h
  · exact hf f h
  · cases hcur : ((splitNl s).foldl parseStep { files := [], cur := Option.none }).cur with
    | none => rw [hcur] at h; simp [closeOpt] at h
    | some c =>
      rw [hcur] at h
      simp only [closeOpt, List.mem_singleton] at h
      subst h
      exact close_FInv c (hc c hcur)

/-- C9, as stated, is false: two file headers with the same `b/` path restart
the per-file index, so two hunks get the id `f:0`. -/
theorem C9_counterexample :
    ¬ ∀ s : Str, ((parseDiff s).getAllHunks.map (fun h => h.id)).Nodup := by
  intro hall
  have := hall ("diff --git a/f b/f\n@@ -1 +1 @@\n x\ndiff --git a/f b/f\n@@ -2 +2 @@\n y\n").toList
  exact absurd this (by decide)

/-- C9 (amended): the hunk ids of a single parse are pairwise distinct
whenever the parsed files' new paths are pairwise distinct (the id is
`<newPath>:<index>` with the index reset per file, so only a repeated `b/`
path can collide). -/
theorem C9_id_uniqueness (s : Str)
    (hpaths : ((parseDiff s).files.map (fun f => f.newPath)).Nodup) :
    ((parseDiff s).getAllHunks.map (fun h => h.id)).Nodup := by
  have hfi := parseDiff_FInv s
  have hmap : (parseDiff s).getAllHunks.map (fun h => h.id) =
      (parseDiff s).files.flatMap (fun f => f.hunks.map (fun h => h.id)) := by
    unfold ParsedDiff.getAllHunks
    rw [List.map_flatMap]
  rw [hmap, List.nodup_flatMap]
  constructor
  · intro f hfm
    rw [hfi f hfm]
    exact idsOf_nodup _ _
  · have hpw : (parseDiff s).files.Pairwise (fun a b => a.newPath ≠ b.newPath) := by
      rw [List.Nodup, List.pairwise_map] at hpaths
      exact hpaths
    refine hpw.imp_of_mem ?_
    intro f g hfm hgm hne
    show List.Disjoint (f.hunks.map (fun h => h.id)) (g.hunks.map (fun h => h.id))
    intro x hx1 hx2
    rw [hfi f hfm] at hx1
    rw [hfi g hgm] at hx2
    unfold idsOf at hx1 hx2
    obtain ⟨i, _, hxi⟩ := List.mem_map.mp hx1
    obtain ⟨j, _, hxj⟩ := List.mem_map.mp hx2
    exact hne (idOf_path_eq f.newPath g.newPath i j (hxi.trans hxj.symm))

/-- Witness for C9 at a concrete two-file diff with distinct paths. -/
theorem C9_id_uniqueness_witness :
    ((parseDiff ("diff --git a/f b/f\n@@ -1 +1 @@\n x\ndiff --git a/g b/g\n@@ -2 +2 @@\n y\n").toList).getAllHunks.map
      (fun h => h.id)).Nodup :=
  C9_id_uniqueness _ (by decide)

/-! ### C4: what splitting actually does with gap context -/

/-- Concatenation of the sub-hunk bodies with the duplicated leading overlap
(`g` lines) of every sub-hunk after the first removed. -/
def dedupConcat (g : Nat) : List (List DiffLine) → List DiffLine
  | [] => []
  | a :: rest => a ++ rest.flatMap (fun x => x.drop g)

/-- Overlap of two adjacent groups: the last `g` lines of the first are
repeated as the first `g` lines of the second, and are context lines. -/
def ovl (g : Nat) (A B : List DiffLine) : Prop :=
  A.drop (A.length - g) = B.take g ∧ ∀ l ∈ B.take g, l.type = LineKind.context

theorem dedup_append_last (g : Nat) (gs : List (List DiffLine)) (x y : List DiffLine)
    (h : gs = [] ∨ g ≤ x.length) :
    dedupConcat g (gs ++ [x ++ y]) = dedupConcat g (gs ++ [x]) ++ y := by
  cases gs with
  | nil => simp [dedupConcat]
  | cons a rest =>
    have hx : g ≤ x.length := by
      rcases h with h | h
      · exact absurd h (by simp)
      · exact h
    simp only [List.cons_append, dedupConcat, List.flatMap_append, List.flatMap_cons,
      List.flatMap_nil, List.append_nil]
    rw [List.drop_append_eq_append_drop, Nat.sub_eq_zero_of_le hx]
    simp

theorem dedup_append_group (g : Nat) (gs : List (List DiffLine)) (x : List DiffLine)
    (h : gs ≠ []) :
    dedupConcat g (gs ++ [x]) = dedupConcat g gs ++ x.drop g := by
  cases gs with
  | nil => simp at h
  | cons a rest =>
    simp [dedupConcat, List.flatMap_append]

theorem ovl_extend (g : Nat) (a x z : List DiffLine) (hx : g ≤ x.length)
    (h : ovl g a x) : ovl g a (x ++ z) := by
  obtain ⟨h1, h2⟩ := h
  have ht : (x ++ z).take g = x.take g := by
    rw [List.take_append_eq_append_take, Nat.sub_eq_zero_of_le hx]
    simp
  exact ⟨by rw [ht]; exact h1, by rw [ht]; exact h2⟩

/-- Extending the final group of an overlap chain preserves the chain when
the final group is at least `g` long (or is the only group). -/
theorem chain_extend_last (g : Nat) (gs : List (List DiffLine)) (x z : List DiffLine)
    (hx : gs ≠ [] → g ≤ x.length)
    (hc : List.Chain' (ovl g) (gs ++ [x])) : List.Chain' (ovl g) (gs ++ [x ++ z]) := by
  rw [List.chain'_append] at hc ⊢
  obtain ⟨hc1, _, hc3⟩ := hc
  refine ⟨hc1, List.chain'_singleton _, ?_⟩
  intro a ha y hy
  simp only [List.head?_cons, Option.mem_def, Option.some.injEq] at hy
  subst hy
  have hgs : gs ≠ [] := by
    intro hcon
    rw [hcon] at ha
    simp at ha
  exact ovl_extend g a x z (hx hgs) (hc3 a ha x (by simp))

/-- Invariant of the grouping loop while inside a change group. -/
def SInvA (g : Nat) (p : List DiffLine) (s : SState) : Prop :=
  dedupConcat g (s.groups ++ [s.cur]) ++ s.buf = p ∧
  List.Chain' (ovl g) (s.groups ++ [s.cur]) ∧
  (∀ l ∈ s.buf, l.type = LineKind.context) ∧
  s.buf.length < g ∧ s.cur ≠ [] ∧ (s.groups ≠ [] → g ≤ s.cur.length)

/-- Invariant of the grouping loop outside a change group: either still in
the leading context, or right after a closed gap whose full context so far is
the buffer (its first `g` lines already flushed into the last group). -/
def SInvB (g : Nat) (p : List DiffLine) (s : SState) : Prop :=
  s.cur = [] ∧ (∀ l ∈ s.buf, l.type = LineKind.context) ∧
  ((s.groups = [] ∧ s.buf = p) ∨
   (s.groups ≠ [] ∧ g ≤ s.buf.length ∧
    dedupConcat g s.groups ++ s.buf.drop g = p ∧
    List.Chain' (ovl g) (s.groups ++ [s.buf])))

def SInv (g : Nat) (p : List DiffLine) (s : SState) : Prop :=
  (s.inCh = true → SInvA g p s) ∧ (s.inCh = false → SInvB g p s)

theorem splitStep_context_close (g : Nat) (s : SState) (l : DiffLine)
    (hl : l.type = LineKind.context) (hin : s.inCh = true)
    (hlen : g ≤ (s.buf ++ [l]).length) :
    splitStep g s l =
      { groups := s.groups ++ [s.cur ++ (s.buf ++ [l]).take g],
        cur := (s.buf ++ [l]).drop g, buf := s.buf ++ [l], inCh := false } := by
  simp only [splitStep, hl, if_pos, hin, hlen, and_self, if_true]

theorem splitStep_context_noclose (g : Nat) (s : SState) (l : DiffLine)
    (hl : l.type = LineKind.context) (hno : ¬ (s.inCh = true ∧ g ≤ (s.buf ++ [l]).length)) :
    splitStep g s l = { s with buf := s.buf ++ [l] } := by
  simp only [splitStep, hl, if_pos, if_neg hno]

theorem splitStep_change (g : Nat) (s : SState) (l : DiffLine)
    (hl : ¬ l.type = LineKind.context) :
    splitStep g s l = { s with cur := s.cur ++ s.buf ++ [l], buf := [], inCh := true } := by
  simp only [splitStep, if_neg hl]

theorem splitStep_SInv (g : Nat) (hg : 1 ≤ g) (p : List DiffLine) (s : SState)
    (l : DiffLine) (hs : SInv g p s) : SInv g (p ++ [l]) (splitStep g s l) := by
  obtain ⟨hA, hB⟩ := hs
  by_cases hl : l.type = LineKind.context
  · by_cases hcl : s.inCh = true ∧ g ≤ (s.buf ++ [l]).length
    · -- the gap closes: flush `cur ++ buf'` as a group, keep the buffer
      obtain ⟨hin, hlen⟩ := hcl
      obtain ⟨a1, a2, a3, a4, a5, a6⟩ := hA hin
      rw [splitStep_context_close g s l hl hin hlen]
      have hblen : (s.buf ++ [l]).length = g := by
        simp only [List.length_append, List.length_cons, List.length_nil] at hlen ⊢
        omega
      have htake : (s.buf ++ [l]).take g = s.buf ++ [l] := by
        rw [← hblen]; exact List.take_length _
      have hdrop : (s.buf ++ [l]).drop g = [] := by
        rw [← hblen]; exact List.drop_length _
      have hctx : ∀ x ∈ s.buf ++ [l], x.type = LineKind.context := by
        intro x hx
        rcases List.mem_append.mp hx with hx | hx
        · exact a3 x hx
        · rw [List.mem_singleton] at hx; subst hx; exact hl
      have hor : s.groups = [] ∨ g ≤ s.cur.length := by
        by_cases hgs : s.groups = []
        · exact Or.inl hgs
        · exact Or.inr (a6 hgs)
      have hded : dedupConcat g (s.groups ++ [s.cur ++ (s.buf ++ [l])]) = p ++ [l] := by
        rw [dedup_append_last g s.groups s.cur (s.buf ++ [l]) hor]
        rw [← List.append_assoc, a1]
      have hch : List.Chain' (ovl g) (s.groups ++ [s.cur ++ (s.buf ++ [l])]) :=
        chain_extend_last g s.groups s.cur (s.buf ++ [l]) a6 a2
      have hlink : ovl g (s.cur ++ (s.buf ++ [l])) (s.buf ++ [l]) := by
        constructor
        · have hlen2 : (s.cur ++ (s.buf ++ [l])).length - g = s.cur.length := by
            rw [List.length_append, hblen]
            omega
          rw [hlen2, List.drop_left, htake]
        · intro x hx
          rw [htake] at hx
          exact hctx x hx
      constructor
      · intro hcon
        exact absurd (show (false : Bool) = true from hcon) (by decide)
      · intro _
        refine ⟨hdrop, hctx, Or.inr ⟨by simp, ?_, ?_, ?_⟩⟩
        · show g ≤ (s.buf ++ [l]).length
          rw [hblen]
        · show dedupConcat g (s.groups ++ [s.cur ++ (s.buf ++ [l]).take g]) ++
            (s.buf ++ [l]).drop g = p ++ [l]
          rw [htake, hdrop, List.append_nil, hded]
        · show List.Chain' (ovl g)
            ((s.groups ++ [s.cur ++ (s.buf ++ [l]).take g]) ++ [s.buf ++ [l]])
          rw [htake, List.chain'_append]
          refine ⟨hch, List.chain'_singleton _, ?_⟩
          intro a ha y hy
          rw [List.getLast?_concat, Option.mem_def, Option.some.injEq] at ha
          rw [List.head?_cons, Option.mem_def, Option.some.injEq] at hy
          subst ha; subst hy
          exact hlink
    · -- context line, no close: just extend the buffer
      rw [splitStep_context_noclose g s l hl hcl]
      cases hin : s.inCh with
      | true =>
        obtain ⟨a1, a2, a3, a4, a5, a6⟩ := hA hin
        have hnlen : ¬ g ≤ (s.buf ++ [l]).length := fun hh => hcl ⟨hin, hh⟩
        constructor
        · intro _
          refine ⟨?_, a2, ?_, ?_, a5, a6⟩
          · show dedupConcat g (s.groups ++ [s.cur]) ++ (s.buf ++ [l]) = p ++ [l]
            rw [← List.append_assoc, a1]
          · intro x hx
            rcases List.mem_append.mp hx with hx | hx
            · exact a3 x hx
            · rw [List.mem_singleton] at hx; subst hx; exact hl
          · show (s.buf ++ [l]).length < g
            have h1 : (s.buf ++ [l]).length = s.buf.length + 1 := by simp
            omega
        · intro hcon
          exact absurd (show (true : Bool) = false from hcon) (by decide)
      | false =>
        obtain ⟨b0, b1, bcase⟩ := hB hin
        have hctx : ∀ x ∈ s.buf ++ [l], x.type = LineKind.context := by
          intro x hx
          rcases List.mem_append.mp hx with hx | hx
          · exact b1 x hx
          · rw [List.mem_singleton] at hx; subst hx; exact hl
        constructor
        · intro hcon
          exact absurd (show (false : Bool) = true from hcon) (by decide)
        · intro _
          refine ⟨b0, hctx, ?_⟩
          rcases bcase with ⟨hgs, hbp⟩ | ⟨hgs, b2, b3, b5⟩
          · exact Or.inl ⟨hgs, by rw [hbp]⟩
          · refine Or.inr ⟨hgs, ?_, ?_, ?_⟩
            · show g ≤ (s.buf ++ [l]).length
              have h1 : (s.buf ++ [l]).length = s.buf.length + 1 := by simp
              omega
            · show dedupConcat g s.groups ++ (s.buf ++ [l]).drop g = p ++ [l]
              rw [List.drop_append_eq_append_drop, Nat.sub_eq_zero_of_le b2,
                List.drop_zero, ← List.append_assoc, b3]
            · show List.Chain' (ovl g) (s.groups ++ [s.buf ++ [l]])
              exact chain_extend_last g s.groups s.buf [l] (fun _ => b2) b5
  · -- a change line: open / extend the current group, absorbing the buffer
    rw [splitStep_change g s l hl]
    have hassoc : s.cur ++ s.buf ++ [l] = s.cur ++ (s.buf ++ [l]) :=
      List.append_assoc _ _ _
    cases hin : s.inCh with
    | true =>
      obtain ⟨a1, a2, a3, a4, a5, a6⟩ := hA hin
      have hor : s.groups = [] ∨ g ≤ s.cur.length := by
        by_cases hgs : s.groups = []
        · exact Or.inl hgs
        · exact Or.inr (a6 hgs)
      constructor
      · intro _
        refine ⟨?_, ?_, by simp, hg, by simp, ?_⟩
        · show dedupConcat g (s.groups ++ [s.cur ++ s.buf ++ [l]]) ++ [] = p ++ [l]
          rw [List.append_nil, hassoc,
            dedup_append_last g s.groups s.cur (s.buf ++ [l]) hor,
            ← List.append_assoc, a1]
        · show List.Chain' (ovl g) (s.groups ++ [s.cur ++ s.buf ++ [l]])
          rw [hassoc]
          exact chain_extend_last g s.groups s.cur (s.buf ++ [l]) a6 a2
        · intro hgs
          show g ≤ (s.cur ++ s.buf ++ [l]).length
          have hc := a6 hgs
          have h1 : (s.cur ++ s.buf ++ [l]).length =
              s.cur.length + (s.buf.length + 1) := by simp
          omega
      · intro hcon
        exact absurd (show (true : Bool) = false from hcon) (by decide)
    | false =>
      obtain ⟨b0, b1, bcase⟩ := hB hin
      constructor
      · intro _
        rcases bcase with ⟨hgs, hbp⟩ | ⟨hgs, b2, b3, b5⟩
        · refine ⟨?_, ?_, by simp, hg, by simp, ?_⟩
          · show dedupConcat g (s.groups ++ [s.cur ++ s.buf ++ [l]]) ++ [] = p ++ [l]
            rw [List.append_nil, hgs, b0]
            simp only [List.nil_append, dedupConcat, List.flatMap_nil, List.append_nil]
            rw [hbp]
          · show List.Chain' (ovl g) (s.groups ++ [s.cur ++ s.buf ++ [l]])
            rw [hgs]
            exact List.chain'_singleton _
          · intro hgs2
            have hgs2' : s.groups ≠ [] := hgs2
            exact absurd hgs hgs2'
        · refine ⟨?_, ?_, by simp, hg, by simp, ?_⟩
          · show dedupConcat g (s.groups ++ [s.cur ++ s.buf ++ [l]]) ++ [] = p ++ [l]
            rw [List.append_nil, b0, List.nil_append,
              dedup_append_group g s.groups (s.buf ++ [l]) hgs,
              List.drop_append_eq_append_drop, Nat.sub_eq_zero_of_le b2,
              List.drop_zero, ← List.append_assoc, b3]
          · show List.Chain' (ovl g) (s.groups ++ [s.cur ++ s.buf ++ [l]])
            rw [b0, List.nil_append]
            exact chain_extend_last g s.groups s.buf [l] (fun _ => b2) b5
          · intro _
            show g ≤ (s.cur ++ s.buf ++ [l]).length
            have h1 : (s.cur ++ s.buf ++ [l]).length =
                s.cur.length + (s.buf.length + 1) := by simp
            omega
      · intro hcon
        exact absurd (show (true : Bool) = false from hcon) (by decide)

theorem foldl_splitStep_SInv (g : Nat) (hg : 1 ≤ g) :
    ∀ (ls p : List DiffLine) (s : SState), SInv g p s →
      SInv g (p ++ ls) (ls.foldl (splitStep g) s)
  | [], p, s, hs => by simpa using hs
  | l :: rest, p, s, hs => by
    have h1 := splitStep_SInv g hg p s l hs
    have h2 := foldl_splitStep_SInv g hg rest (p ++ [l]) (splitStep g s l) h1
    simpa [List.append_assoc] using h2

theorem SInv_init (g : Nat) : SInv g [] ⟨[], [], [], false⟩ := by
  constructor
  · intro hcon
    exact absurd (show (false : Bool) = true from hcon) (by decide)
  · intro _
    exact ⟨rfl, by simp, Or.inl ⟨rfl, rfl⟩⟩

theorem SInv_final (g : Nat) (hg : 1 ≤ g) (ls : List DiffLine) :
    SInv g ls (ls.foldl (splitStep g) ⟨[], [], [], false⟩) := by
  have h := foldl_splitStep_SInv g hg ls [] ⟨[], [], [], false⟩ (SInv_init g)
  simpa using h

/-- What the grouping loop guarantees about its output: adjacent groups
overlap in exactly `g` context lines (the gap lines flushed into the earlier
group and retained in the buffer for the later one), and dropping each later
group's `g`-line overlap re-assembles the original body up to a dropped
all-context tail. -/
theorem splitGroups_characterization (g : Nat) (hg : 1 ≤ g) (ls : List DiffLine) :
    List.Chain' (ovl g) (splitGroups g ls) ∧
    ∃ tail, (∀ l ∈ tail, l.type = LineKind.context) ∧
      dedupConcat g (splitGroups g ls) ++ tail = ls := by
  obtain ⟨hA, hB⟩ := SInv_final g hg ls
  unfold splitGroups splitFinish
  cases hin : (ls.foldl (splitStep g) ⟨[], [], [], false⟩).inCh with
  | true =>
    obtain ⟨a1, a2, a3, a4, a5, a6⟩ := hA hin
    rw [if_neg a5]
    refine ⟨chain_extend_last g _ _ _ a6 a2, [], by simp, ?_⟩
    have hor : (ls.foldl (splitStep g) ⟨[], [], [], false⟩).groups = [] ∨
        g ≤ (ls.foldl (splitStep g) ⟨[], [], [], false⟩).cur.length := by
      by_cases hgs : (ls.foldl (splitStep g) ⟨[], [], [], false⟩).groups = []
      · exact Or.inl hgs
      · exact Or.inr (a6 hgs)
    rw [List.append_nil, dedup_append_last g _ _ _ hor, a1]
  | false =>
    obtain ⟨b0, b1, bcase⟩ := hB hin
    rw [if_pos b0]
    rcases bcase with ⟨hgs, hbp⟩ | ⟨hgs, b2, b3, b5⟩
    · rw [hgs]
      exact ⟨List.chain'_nil, ls, by rw [← hbp]; exact fun x hx => b1 x hx, by
        simp [dedupConcat, hbp]⟩
    · refine ⟨?_, (ls.foldl (splitStep g) ⟨[], [], [], false⟩).buf.drop g, ?_, b3⟩
      · rw [List.chain'_append] at b5
        exact b5.1
      · intro x hx
        exact b1 x (List.mem_of_mem_drop hx)

/-- Group-count bookkeeping: inside a change group at least one group is
already flushed iff a gap closed before; outside, at least two groups exist
once a split point was found. -/
def QLen (s : SState) : Prop :=
  (s.inCh = true → s.groups ≠ []) ∧ (s.inCh = false → 2 ≤ s.groups.length)

theorem splitStep_QLen (g : Nat) (s : SState) (l : DiffLine) (hq : QLen s) :
    QLen (splitStep g s l) := by
  obtain ⟨q1, q2⟩ := hq
  by_cases hl : l.type = LineKind.context
  · by_cases hcl : s.inCh = true ∧ g ≤ (s.buf ++ [l]).length
    · rw [splitStep_context_close g s l hl hcl.1 hcl.2]
      constructor
      · intro hcon
        exact absurd (show (false : Bool) = true from hcon) (by decide)
      · intro _
        show 2 ≤ (s.groups ++ [s.cur ++ (s.buf ++ [l]).take g]).length
        have hpos : 0 < s.groups.length := List.length_pos.mpr (q1 hcl.1)
        rw [List.length_append]
        simp only [List.length_cons, List.length_nil]
        omega
    · rw [splitStep_context_noclose g s l hl hcl]
      exact ⟨q1, q2⟩
  · rw [splitStep_change g s l hl]
    constructor
    · intro _
      show s.groups ≠ []
      cases hin : s.inCh with
      | true => exact q1 hin
      | false =>
        have h2 := q2 hin
        intro hcon
        rw [hcon] at h2
        simp at h2
    · intro hcon
      exact absurd (show (true : Bool) = false from hcon) (by decide)

theorem foldl_splitStep_QLen (g : Nat) :
    ∀ (ls : List DiffLine) (s : SState), QLen s → QLen (ls.foldl (splitStep g) s)
  | [], _, hq => hq
  | l :: rest, s, hq =>
    foldl_splitStep_QLen g rest (splitStep g s l) (splitStep_QLen g s l hq)

/-- Simulation relation between the scan state of `isSplittable` and the
grouping state of `splitHunk`. -/
def SplitRel (g : Nat) (inb : Bool) (cnt : Nat) (s : SState) : Prop :=
  s.inCh = inb ∧ (inb = true → cnt = s.buf.length) ∧
  (inb = false →
    ((s.cur = [] ∧ s.groups = [] ∧ cnt = 0) ∨ (s.groups ≠ [] ∧ g ≤ cnt ∧ 0 < cnt)))

theorem isSplittableAux_QLen (g : Nat) :
    ∀ (ls : List DiffLine) (inb : Bool) (cnt : Nat) (s : SState),
      SplitRel g inb cnt s → isSplittableAux g ls inb cnt = true →
      QLen (ls.foldl (splitStep g) s)
  | [], inb, cnt, s, _, htrue => by
    simp [isSplittableAux] at htrue
  | l :: rest, inb, cnt, s, hrel, htrue => by
    obtain ⟨r1, r2, r3⟩ := hrel
    rw [List.foldl_cons]
    simp only [isSplittableAux] at htrue
    by_cases hl : l.type = LineKind.context
    · rw [if_pos hl] at htrue
      cases hib : inb with
      | true =>
        rw [if_pos (by rw [hib])] at htrue
        have hbuf : s.buf.length = cnt := (r2 hib).symm
        by_cases hcnt : g ≤ cnt + 1
        · rw [if_pos hcnt] at htrue
          have hlen : g ≤ (s.buf ++ [l]).length := by
            have h1 : (s.buf ++ [l]).length = s.buf.length + 1 := by simp
            omega
          rw [splitStep_context_close g s l hl (by rw [r1, hib]) hlen]
          refine isSplittableAux_QLen g rest false (cnt + 1) _ ⟨rfl, ?_, ?_⟩ htrue
          · intro hcon
            exact absurd hcon (by decide)
          · intro _
            refine Or.inr ⟨by simp, hcnt, by omega⟩
        · rw [if_neg hcnt] at htrue
          have hno : ¬ (s.inCh = true ∧ g ≤ (s.buf ++ [l]).length) := by
            intro ⟨_, hh⟩
            have h1 : (s.buf ++ [l]).length = s.buf.length + 1 := by simp
            omega
          rw [splitStep_context_noclose g s l hl hno]
          refine isSplittableAux_QLen g rest true (cnt + 1) _ ⟨by rw [r1, hib], ?_, ?_⟩
            htrue
          · intro _
            show cnt + 1 = (s.buf ++ [l]).length
            have h1 : (s.buf ++ [l]).length = s.buf.length + 1 := by simp
            omega
          · intro hcon
            exact absurd hcon (by decide)
      | false =>
        rw [if_neg (by rw [hib]; decide)] at htrue
        have hno : ¬ (s.inCh = true ∧ g ≤ (s.buf ++ [l]).length) := by
          intro ⟨hh, _⟩
          rw [r1, hib] at hh
          exact absurd hh (by decide)
        rw [splitStep_context_noclose g s l hl hno]
        rw [hib] at htrue
        refine isSplittableAux_QLen g rest false cnt _ ⟨by rw [r1, hib], ?_, ?_⟩ htrue
        · intro hcon
          exact absurd hcon (by decide)
        · intro _
          exact r3 hib
    · rw [if_neg hl] at htrue
      rw [splitStep_change g s l hl]
      by_cases htrig : inb = false ∧ g ≤ cnt ∧ 0 < cnt
      · refine foldl_splitStep_QLen g rest _ ⟨?_, ?_⟩
        · intro _
          show s.groups ≠ []
          rcases r3 htrig.1 with ⟨_, _, hc0⟩ | ⟨hgs, _, _⟩
          · exfalso
            have h0 := htrig.2.2
            omega
          · exact hgs
        · intro hcon
          exact absurd (show (true : Bool) = false from hcon) (by decide)
      · rw [if_neg htrig] at htrue
        refine isSplittableAux_QLen g rest true 0 _ ⟨rfl, ?_, ?_⟩ htrue
        · intro _
          rfl
        · intro hcon
          exact absurd hcon (by decide)

theorem isSplittable_two_groups (g : Nat) (hg : 1 ≤ g) (ls : List DiffLine)
    (hsp : isSplittableAux g ls false 0 = true) :
    2 ≤ (splitGroups g ls).length := by
  have hq := isSplittableAux_QLen g ls false 0 ⟨[], [], [], false⟩
    ⟨rfl, fun hcon => absurd hcon (by decide), fun _ => Or.inl ⟨rfl, rfl, rfl⟩⟩ hsp
  obtain ⟨hA, hB⟩ := SInv_final g hg ls
  unfold splitGroups splitFinish
  cases hin : (ls.foldl (splitStep g) ⟨[], [], [], false⟩).inCh with
  | true =>
    obtain ⟨_, _, _, _, a5, _⟩ := hA hin
    rw [if_neg a5]
    have hpos : 0 < (ls.foldl (splitStep g) ⟨[], [], [], false⟩).groups.length :=
      List.length_pos.mpr (hq.1 hin)
    rw [List.length_append]
    simp only [List.length_cons, List.length_nil]
    omega
  | false =>
    obtain ⟨b0, _, _⟩ := hB hin
    rw [if_pos b0]
    exact hq.2 hin

theorem mkSubHunks_map_lines (h : Hunk) :
    ∀ (gs : List (List DiffLine)) (ol nl gi : Nat),
      (mkSubHunks h gs ol nl gi).map (fun sh => sh.lines) = gs
  | [], _, _, _ => rfl
  | gp :: rest, ol, nl, gi => by
    simp only [mkSubHunks, List.map_cons]
    rw [mkSubHunks_map_lines h rest]

/-- A splittable hunk (two additions around a two-line context gap) whose
first gap line is duplicated into both sub-hunks by `splitHunk`. -/
def c4Hunk : Hunk :=
  { id := "f:0".toList, file := "f".toList, index := 0,
    header := "@@ -1,3 +1,4 @@".toList, oldStart := 1, oldCount := 3,
    newStart := 1, newCount := 4,
    lines := [⟨LineKind.add, "a".toList⟩, ⟨LineKind.context, "c1".toList⟩,
      ⟨LineKind.context, "c2".toList⟩, ⟨LineKind.add, "b".toList⟩],
    context := none }

/-- C4, counterexample: concatenating the sub-hunks' line sequences does NOT
reproduce `h.lines` — on `c4Hunk` with `minContextGap = 1` the gap's first
context line `c1` appears in both sub-hunks, because the grouping loop never
clears its context buffer after flushing a gap. -/
theorem C4_counterexample :
    ¬ (∀ (h : Hunk) (g : Nat), 1 ≤ g → isSplittable h g = true →
        ((splitHunk h g).map (fun sh => sh.lines)).flatten = h.lines) := by
  intro hall
  have h1 := hall c4Hunk 1 (by decide) (by decide)
  revert h1
  decide

/-- C4 (amended): for a hunk splittable under gap `g`, `splitHunk` yields at
least two sub-hunks; each gap's first `g` context lines become trailing
context of the preceding sub-hunk AND are repeated as the start of the
following sub-hunk's leading context (so adjacent sub-hunks overlap in
exactly those `g` context lines); dropping each later sub-hunk's `g`-line
leading overlap re-assembles `h.lines` up to a dropped trailing all-context
tail. -/
theorem C4_split_gap_distribution (h : Hunk) (g : Nat) (hg : 1 ≤ g)
    (hsp : isSplittable h g = true) :
    2 ≤ (splitHunk h g).length ∧
    List.Chain' (fun A B => ovl g A.lines B.lines) (splitHunk h g) ∧
    ∃ tail, (∀ l ∈ tail, l.type = LineKind.context) ∧
      dedupConcat g ((splitHunk h g).map (fun sh => sh.lines)) ++ tail = h.lines := by
  obtain ⟨hch, tail, htail, hded⟩ := splitGroups_characterization g hg h.lines
  rw [splitHunk, if_pos hsp]
  have hmap := mkSubHunks_map_lines h (splitGroups g h.lines) h.oldStart h.newStart 0
  refine ⟨?_, ?_, tail, htail, ?_⟩
  · have hlen := congrArg List.length hmap
    rw [List.length_map] at hlen
    rw [hlen]
    exact isSplittable_two_groups g hg h.lines hsp
  · have hch2 : List.Chain' (ovl g)
        ((mkSubHunks h (splitGroups g h.lines) h.oldStart h.newStart 0).map
          (fun sh => sh.lines)) := by
      rw [hmap]; exact hch
    exact (List.chain'_map _).mp hch2
  · rw [hmap]
    exact hded

theorem C4_split_gap_distribution_witness :
    1 ≤ 1 ∧ isSplittable c4Hunk 1 = true ∧
      (2 ≤ (splitHunk c4Hunk 1).length ∧
       List.Chain' (fun A B => ovl 1 A.lines B.lines) (splitHunk c4Hunk 1) ∧
       ∃ tail, (∀ l ∈ tail, l.type = LineKind.context) ∧
         dedupConcat 1 ((splitHunk c4Hunk 1).map (fun sh => sh.lines)) ++ tail =
           c4Hunk.lines) :=
  ⟨by decide, by decide, C4_split_gap_distribution c4Hunk 1 (by decide) (by decide)⟩

/-! ### C3: round-tripping `generatePatch` through `parseDiff` -/

theorem mfhAt (cs : Str) : matchFileHeader ('@' :: cs) = Option.none := rfl

theorem mfhDash (cs : Str) : matchFileHeader ('-' :: cs) = Option.none := rfl

theorem mfhPlus (cs : Str) : matchFileHeader ('+' :: cs) = Option.none := rfl

theorem mfhSpace (cs : Str) : matchFileHeader (' ' :: cs) = Option.none := rfl

theorem mfhNil : matchFileHeader [] = Option.none := rfl

theorem mhhDash (cs : Str) : matchHunkHeader ('-' :: cs) = Option.none := rfl

theorem mhhPlus (cs : Str) : matchHunkHeader ('+' :: cs) = Option.none := rfl

theorem mhhSpace (cs : Str) : matchHunkHeader (' ' :: cs) = Option.none := rfl

theorem mhhNil : matchHunkHeader [] = Option.none := rfl

theorem mhh_head (l : Str) (v : Nat × Nat × Nat × Nat × Str)
    (hm : matchHunkHeader l = some v) : ∃ cs, l = '@' :: cs := by
  cases l with
  | nil => rw [mhhNil] at hm; exact absurd hm (by simp)
  | cons c cs =>
    refine ⟨cs, ?_⟩
    by_cases hc : c = '@'
    · rw [hc]
    · exfalso
      have hfalse : strHasPre "@@ -".toList (c :: cs) = false := by
        show ('@' == c && strHasPre "@ -".toList cs) = false
        have : ('@' == c) = false := by
          rw [beq_eq_false_iff_ne]
          exact fun hh => hc hh.symm
        rw [this, Bool.false_and]
      unfold matchHunkHeader at hm
      rw [hfalse] at hm
      exact absurd hm (by simp)

theorem mfh_of_mhh (l : Str) (v : Nat × Nat × Nat × Nat × Str)
    (hm : matchHunkHeader l = some v) : matchFileHeader l = Option.none := by
  obtain ⟨cs, hl⟩ := mhh_head l v hm
  rw [hl, mfhAt]

theorem splitLastB_cons_eq (c : Char) (cs : Str) :
    splitLastB (c :: cs) =
      (match splitLastB cs with
       | some (b, a) => some (c :: b, a)
       | Option.none =>
         match c, cs with
         | ' ', 'b' :: '/' :: d :: ds => some ([], d :: ds)
         | _, _ => Option.none) := rfl

theorem splitNl_cons_eq (c : Char) (rest : Str) :
    splitNl (c :: rest) =
      (if c = '\n' then [] :: splitNl rest
       else
         match splitNl rest with
         | [] => [[c]]
         | l :: ls => (c :: l) :: ls) := rfl

theorem splitLastB_slash (f : Str) (h : splitLastB f = Option.none) :
    splitLastB ('/' :: f) = Option.none := by
  rw [splitLastB_cons_eq, h]
  rfl

theorem splitLastB_b (f : Str) (h : splitLastB f = Option.none) :
    splitLastB ('b' :: '/' :: f) = Option.none := by
  rw [splitLastB_cons_eq, splitLastB_slash f h]
  rfl

theorem splitLastB_marker (f2 : Str) (h : splitLastB f2 = Option.none) (hne : f2 ≠ []) :
    ∀ f1, splitLastB (f1 ++ ' ' :: 'b' :: '/' :: f2) = some (f1, f2)
  | [] => by
    cases f2 with
    | nil => exact absurd rfl hne
    | cons d ds =>
      show splitLastB (' ' :: 'b' :: '/' :: d :: ds) = some ([], d :: ds)
      rw [splitLastB_cons_eq, splitLastB_b (d :: ds) h]
      rfl
  | c :: f1 => by
    show splitLastB (c :: (f1 ++ ' ' :: 'b' :: '/' :: f2)) = some (c :: f1, f2)
    rw [splitLastB_cons_eq, splitLastB_marker f2 h hne f1]

theorem mfh_unfold (r : Str) :
    matchFileHeader ("diff --git a/".toList ++ r) =
      (match splitLastB r with
       | some ([], _) => Option.none
       | some (b, a) => some (b, a)
       | Option.none => Option.none) := rfl

theorem matchFileHeader_built (f : Str) (hne : f ≠ []) (hnb : splitLastB f = Option.none) :
    matchFileHeader ("diff --git a/".toList ++ (f ++ ' ' :: 'b' :: '/' :: f)) =
      some (f, f) := by
  rw [mfh_unfold, splitLastB_marker f hnb hne f]
  cases f with
  | nil => exact absurd rfl hne
  | cons c f' => rfl

theorem splitNl_no_nl_append (x rest : Str) (hx : ¬ '\n' ∈ x) :
    splitNl (x ++ '\n' :: rest) = x :: splitNl rest := by
  induction x with
  | nil =>
    show splitNl ('\n' :: rest) = [] :: splitNl rest
    rw [splitNl_cons_eq, if_pos rfl]
  | cons c x' ih =>
    have hc : ¬ c = '\n' := fun hh => hx (by rw [hh]; exact List.mem_cons_self _ _)
    have hx' : ¬ '\n' ∈ x' := fun hh => hx (List.mem_cons_of_mem _ hh)
    show splitNl (c :: (x' ++ '\n' :: rest)) = (c :: x') :: splitNl rest
    rw [splitNl_cons_eq, if_neg hc, ih hx']

theorem splitNl_join : ∀ (ls : List Str), ls ≠ [] → (∀ s ∈ ls, ¬ '\n' ∈ s) →
    splitNl (List.intercalate ['\n'] ls ++ ['\n']) = ls ++ [[]]
  | [], h, _ => absurd rfl h
  | [s], _, hs => by
    have h1 : List.intercalate ['\n'] [s] = s := by
      simp [List.intercalate, List.intersperse]
    rw [h1, splitNl_no_nl_append s [] (hs s (by simp))]
    rfl
  | s :: t :: ls, _, hs => by
    have h1 : List.intercalate ['\n'] (s :: t :: ls) =
        s ++ '\n' :: List.intercalate ['\n'] (t :: ls) := by
      simp [List.intercalate, List.intersperse]
    rw [h1, List.append_assoc, List.cons_append,
      splitNl_no_nl_append s _ (hs s (by simp)),
      splitNl_join (t :: ls) (by simp) (fun x hx => hs x (List.mem_cons_of_mem _ hx))]
    rfl

theorem insertByOldStart_last (x : Hunk) :
    ∀ (acc : List Hunk), (∀ y ∈ acc, y.oldStart ≤ x.oldStart) →
      insertByOldStart x acc = acc ++ [x]
  | [], _ => rfl
  | y :: ys, h => by
    show (if y.oldStart ≤ x.oldStart then y :: insertByOldStart x ys else x :: y :: ys) = _
    rw [if_pos (h y (by simp)), insertByOldStart_last x ys
      (fun z hz => h z (List.mem_cons_of_mem _ hz))]
    rfl

theorem foldl_insert_sorted :
    ∀ (l acc : List Hunk), (∀ y ∈ acc, ∀ x ∈ l, y.oldStart ≤ x.oldStart) →
      List.Pairwise (fun a b => a.oldStart ≤ b.oldStart) l →
      l.foldl (fun a x => insertByOldStart x a) acc = acc ++ l
  | [], acc, _, _ => by simp
  | x :: t, acc, hle, hp => by
    rw [List.foldl_cons, insertByOldStart_last x acc (fun y hy => hle y hy x (by simp))]
    rw [foldl_insert_sorted t (acc ++ [x]) ?_ (List.Pairwise.sublist (by simp) hp)]
    · simp
    · intro y hy z hz
      rcases List.mem_append.mp hy with hy | hy
      · exact hle y hy z (List.mem_cons_of_mem _ hz)
      · rw [List.mem_singleton] at hy
        subst hy
        exact (List.pairwise_cons.mp hp).1 z hz

theorem sortByOldStart_sorted (hs : List Hunk)
    (hp : List.Pairwise (fun a b => a.oldStart ≤ b.oldStart) hs) :
    sortByOldStart hs = hs := by
  unfold sortByOldStart
  rw [foldl_insert_sorted hs [] (by simp) hp]
  rfl

theorem insertGroup_absent (h : Hunk) :
    ∀ (acc : List (Str × List Hunk)), ¬ h.file ∈ acc.map Prod.fst →
      insertGroup acc h = acc ++ [(h.file, [h])]
  | [], _ => rfl
  | (f, hs) :: rest, habs => by
    show (if f = h.file then (f, hs ++ [h]) :: rest else (f, hs) :: insertGroup rest h) = _
    rw [if_neg (fun hh => habs (by rw [← hh]; simp)),
      insertGroup_absent h rest (fun hh => habs (by simp [hh]))]
    rfl

theorem insertGroup_last (h : Hunk) (k : Str) (cur : List Hunk) (hk : h.file = k) :
    ∀ (acc : List (Str × List Hunk)), ¬ k ∈ acc.map Prod.fst →
      insertGroup (acc ++ [(k, cur)]) h = acc ++ [(k, cur ++ [h])]
  | [], _ => by
    show (if k = h.file then (k, cur ++ [h]) :: [] else
      (k, cur) :: insertGroup [] h) = _
    rw [if_pos hk.symm]
    rfl
  | (f, hs) :: rest, habs => by
    show (if f = h.file then (f, hs ++ [h]) :: (rest ++ [(k, cur)]) else
      (f, hs) :: insertGroup (rest ++ [(k, cur)]) h) = _
    rw [if_neg (fun hh => habs (by rw [hk] at hh; rw [← hh]; simp)),
      insertGroup_last h k cur hk rest (fun hh => habs (by simp [hh]))]
    rfl

theorem foldl_insertGroup_same (k : Str) :
    ∀ (hs : List Hunk) (acc : List (Str × List Hunk)) (cur : List Hunk),
      ¬ k ∈ acc.map Prod.fst → (∀ h ∈ hs, h.file = k) →
      hs.foldl insertGroup (acc ++ [(k, cur)]) = acc ++ [(k, cur ++ hs)]
  | [], acc, cur, _, _ => by simp
  | h :: t, acc, cur, habs, hall => by
    rw [List.foldl_cons, insertGroup_last h k cur (hall h (by simp)) acc habs,
      foldl_insertGroup_same k t acc (cur ++ [h]) habs
        (fun x hx => hall x (List.mem_cons_of_mem _ hx))]
    simp

theorem foldl_insertGroup_files :
    ∀ (files : List FileDiff) (acc : List (Str × List Hunk)),
      (files.map (fun f => f.newPath)).Nodup →
      (∀ f ∈ files, ∀ h ∈ f.hunks, h.file = f.newPath) →
      (∀ f ∈ files, ¬ f.newPath ∈ acc.map Prod.fst) →
      (files.flatMap (fun f => f.hunks)).foldl insertGroup acc =
        acc ++ (files.filter (fun f => !f.hunks.isEmpty)).map
          (fun f => (f.newPath, f.hunks))
  | [], acc, _, _, _ => by simp
  | f :: rest, acc, hnd, hfl, habs => by
    simp only [List.flatMap_cons, List.foldl_append]
    have hnd' : (rest.map (fun f => f.newPath)).Nodup := (List.nodup_cons.mp hnd).2
    have hfl' : ∀ g ∈ rest, ∀ h ∈ g.hunks, h.file = g.newPath :=
      fun g hg => hfl g (List.mem_cons_of_mem _ hg)
    cases hh : f.hunks with
    | nil =>
      show List.foldl insertGroup acc (rest.flatMap (fun f => f.hunks)) = _
      rw [foldl_insertGroup_files rest acc hnd' hfl'
        (fun g hg => habs g (List.mem_cons_of_mem _ hg))]
      have : (f :: rest).filter (fun f => !f.hunks.isEmpty) =
          rest.filter (fun f => !f.hunks.isEmpty) := by
        rw [List.filter_cons]
        rw [if_neg (by rw [hh]; simp)]
      rw [this]
    | cons h0 t0 =>
      have hf0 : h0.file = f.newPath := hfl f (by simp) h0 (by rw [hh]; simp)
      have habsf : ¬ f.newPath ∈ acc.map Prod.fst := habs f (by simp)
      rw [List.foldl_cons]
      rw [show insertGroup acc h0 = acc ++ [(h0.file, [h0])] from
        insertGroup_absent h0 acc (by rw [hf0]; exact habsf)]
      rw [hf0]
      rw [foldl_insertGroup_same f.newPath t0 acc [h0] habsf
        (fun x hx => hfl f (by simp) x (by rw [hh]; exact List.mem_cons_of_mem _ hx))]
      have hnotmem : ¬ f.newPath ∈ rest.map (fun g => g.newPath) :=
        (List.nodup_cons.mp hnd).1
      rw [List.singleton_append,
        foldl_insertGroup_files rest (acc ++ [(f.newPath, h0 :: t0)]) hnd' hfl' ?_]
      · have : (f :: rest).filter (fun f => !f.hunks.isEmpty) =
            f :: rest.filter (fun f => !f.hunks.isEmpty) := by
          rw [List.filter_cons, if_pos (by rw [hh]; simp)]
        rw [this, List.map_cons, hh]
        simp
      · intro g hg hmem
        rw [List.map_append] at hmem
        rcases List.mem_append.mp hmem with hm | hm
        · exact habs g (List.mem_cons_of_mem _ hg) hm
        · simp only [List.map_cons, List.map_nil, List.mem_singleton] at hm
          exact hnotmem (by rw [← hm]; exact List.mem_map_of_mem _ hg)

theorem groupByFile_canonical (files : List FileDiff)
    (hnd : (files.map (fun f => f.newPath)).Nodup)
    (hfl : ∀ f ∈ files, ∀ h ∈ f.hunks, h.file = f.newPath) :
    groupByFile (files.flatMap (fun f => f.hunks)) =
      (files.filter (fun f => !f.hunks.isEmpty)).map (fun f => (f.newPath, f.hunks)) := by
  unfold groupByFile
  rw [foldl_insertGroup_files files [] hnd hfl (by simp)]
  rfl

theorem flatMap_filter_nonempty (files : List FileDiff) :
    (files.filter (fun f => !f.hunks.isEmpty)).flatMap (fun f => f.hunks) =
      files.flatMap (fun f => f.hunks) := by
  induction files with
  | nil => rfl
  | cons f rest ih =>
    rw [List.filter_cons]
    by_cases hh : f.hunks.isEmpty
    · rw [if_neg (by simp [hh]), List.flatMap_cons, ih,
        List.isEmpty_iff.mp hh, List.nil_append]
    · rw [if_pos (by simp [hh]), List.flatMap_cons, List.flatMap_cons, ih]

/-- Well-formedness of a hunk sitting at position `i` of the file with new
path `f`, as `parseDiff` would have produced it: id/file/index are canonical,
the stored header re-parses to exactly the stored numeric fields and context,
and no embedded newlines. -/
def HunkWF (f : Str) (i : Nat) (h : Hunk) : Prop :=
  h.id = f ++ ':' :: natStr i ∧ h.file = f ∧ h.index = i ∧
  parseHunkHeader h.header =
    some ⟨h.oldStart, h.oldCount, h.newStart, h.newCount, h.context⟩ ∧
  ¬ '\n' ∈ h.header ∧ ∀ l ∈ h.lines, ¬ '\n' ∈ l.content

instance hunkWFDec (f : Str) (i : Nat) (h : Hunk) : Decidable (HunkWF f i h) := by
  unfold HunkWF
  infer_instance

/-- All hunks of a list well-formed at consecutive indices starting at `i`. -/
def HunksWF (f : Str) : Nat → List Hunk → Prop
  | _, [] => True
  | i, h :: rest => HunkWF f i h ∧ HunksWF f (i + 1) rest

instance hunksWFDec (f : Str) : (i : Nat) → (hs : List Hunk) → Decidable (HunksWF f i hs)
  | _, [] => Decidable.isTrue trivial
  | i, h :: rest =>
    have : Decidable (HunksWF f (i + 1) rest) := hunksWFDec f (i + 1) rest
    inferInstanceAs (Decidable (HunkWF f i h ∧ HunksWF f (i + 1) rest))

/-- A `ParsedDiff` in the canonical shape `parseDiff` emits when file paths
are distinct and each file's hunks are already ordered by `oldStart`. -/
def canonicalDiff (d : ParsedDiff) : Prop :=
  (d.files.map (fun f => f.newPath)).Nodup ∧
  ∀ f ∈ d.files, f.newPath ≠ [] ∧ splitLastB f.newPath = Option.none ∧
    ¬ '\n' ∈ f.newPath ∧ List.Pairwise (fun a b => a.oldStart ≤ b.oldStart) f.hunks ∧
    HunksWF f.newPath 0 f.hunks

instance canonicalDiffDec (d : ParsedDiff) : Decidable (canonicalDiff d) := by
  unfold canonicalDiff
  infer_instance

theorem HunksWF_file (f : Str) :
    ∀ (i : Nat) (hs : List Hunk), HunksWF f i hs → ∀ h ∈ hs, h.file = f
  | _, [], _, h, hm => absurd hm (by simp)
  | i, h0 :: rest, hwf, h, hm => by
    rcases List.mem_cons.mp hm with hm | hm
    · subst hm
      exact hwf.1.2.1
    · exact HunksWF_file f (i + 1) rest hwf.2 h hm

theorem parseHunkHeader_inv (l : Str) (info : HunkHeaderInfo)
    (hp : parseHunkHeader l = some info) :
    ∃ raw, matchHunkHeader l =
      some (info.oldStart, info.oldCount, info.newStart, info.newCount, raw) ∧
      ctxOpt raw = info.context := by
  unfold parseHunkHeader at hp
  cases hm : matchHunkHeader l with
  | none => rw [hm] at hp; exact absurd hp (by simp)
  | some v =>
    obtain ⟨os, oc, ns, nc, raw⟩ := v
    rw [hm] at hp
    simp only [Option.some.injEq] at hp
    refine ⟨raw, ?_, ?_⟩
    · rw [← hp]
    · rw [← hp]

theorem parseRun_body :
    ∀ (ls : List DiffLine) (F : List FileDiff) (c : CurFile) (hk : Hunk),
      c.curHunk = some hk → c.metaMode = false →
      (ls.map lineText).foldl parseStep ⟨F, some c⟩ =
        ⟨F, some { c with curHunk := some { hk with lines := hk.lines ++ ls } }⟩
  | [], F, c, hk, hcur, hmeta => by
    simp only [List.map_nil, List.foldl_nil]
    rw [List.append_nil, ← hcur]
  | l :: ls, F, c, hk, hcur, hmeta => by
    obtain ⟨t, cont⟩ := l
    simp only [List.map_cons, List.foldl_cons]
    have hstep : parseStep ⟨F, some c⟩ (lineText ⟨t, cont⟩) =
        ⟨F, some { c with curHunk := some { hk with lines := hk.lines ++ [⟨t, cont⟩] } }⟩ := by
      cases t with
      | context =>
        rw [show lineText ⟨LineKind.context, cont⟩ = ' ' :: cont from rfl,
          parseStep_cur _ _ c (mfhSpace _) rfl]
        rw [if_neg (by rw [hmeta]; exact fun hh => Bool.noConfusion hh),
          hunkLineStep_body c hk ' ' cont (mhhSpace _) hcur, if_pos rfl]
      | add =>
        rw [show lineText ⟨LineKind.add, cont⟩ = '+' :: cont from rfl,
          parseStep_cur _ _ c (mfhPlus _) rfl]
        rw [if_neg (by rw [hmeta]; exact fun hh => Bool.noConfusion hh),
          hunkLineStep_body c hk '+' cont (mhhPlus _) hcur,
          if_neg (by decide), if_neg (by decide), if_pos rfl]
      | remove =>
        rw [show lineText ⟨LineKind.remove, cont⟩ = '-' :: cont from rfl,
          parseStep_cur _ _ c (mfhDash _) rfl]
        rw [if_neg (by rw [hmeta]; exact fun hh => Bool.noConfusion hh),
          hunkLineStep_body c hk '-' cont (mhhDash _) hcur,
          if_neg (by decide), if_pos rfl]
    rw [hstep]
    rw [parseRun_body ls F
      { c with curHunk := some { hk with lines := hk.lines ++ [⟨t, cont⟩] } }
      { hk with lines := hk.lines ++ [⟨t, cont⟩] } rfl hmeta]
    simp only [List.append_assoc, List.singleton_append]

theorem parseRun_hunks :
    ∀ (hs : List Hunk) (F : List FileDiff) (c : CurFile) (i : Nat),
      HunksWF c.newPath i hs → c.metaMode = false → c.hunkIndex = i →
      ∃ c' : CurFile,
        (hs.flatMap (fun h => h.header :: h.lines.map lineText)).foldl parseStep
            ⟨F, some c⟩ = ⟨F, some c'⟩ ∧
        c'.close = { oldPath := c.oldPath, newPath := c.newPath, isNew := c.isNew,
                     isDeleted := c.isDeleted, isRenamed := c.isRenamed,
                     hunks := c.hunks ++ c.curHunk.toList ++ hs }
  | [], F, c, i, _, _, _ => by
    refine ⟨c, by simp, ?_⟩
    show c.close = _
    unfold CurFile.close
    rw [List.append_nil]
  | h :: rest, F, c, i, hwf, hmeta, hidx => by
    obtain ⟨hwf1, hwfr⟩ := hwf
    obtain ⟨hid, hfile, hindex, hhdr, hnl, hlnl⟩ := hwf1
    obtain ⟨raw, hm, hctx⟩ := parseHunkHeader_inv h.header _ hhdr
    simp only [List.flatMap_cons, List.cons_append, List.foldl_cons, List.foldl_append]
    rw [parseStep_cur _ _ c (mfh_of_mhh _ _ hm) rfl,
      if_neg (by rw [hmeta]; exact fun hh => Bool.noConfusion hh),
      hunkLineStep_hdr c h.header _ _ _ _ _ hm, hctx]
    rw [parseRun_body h.lines F
      { c with hunks := c.hunks ++ c.curHunk.toList,
               curHunk := some { id := c.newPath ++ ':' :: natStr c.hunkIndex,
                                 file := c.newPath, index := c.hunkIndex,
                                 header := h.header, oldStart := h.oldStart,
                                 oldCount := h.oldCount, newStart := h.newStart,
                                 newCount := h.newCount, lines := [],
                                 context := h.context },
               hunkIndex := c.hunkIndex + 1 }
      { id := c.newPath ++ ':' :: natStr c.hunkIndex,
        file := c.newPath, index := c.hunkIndex, header := h.header,
        oldStart := h.oldStart, oldCount := h.oldCount, newStart := h.newStart,
        newCount := h.newCount, lines := [], context := h.context } rfl hmeta]
    · obtain ⟨c', hrun, hclose⟩ := parseRun_hunks rest F
        { c with hunks := c.hunks ++ c.curHunk.toList,
                 curHunk := some { id := c.newPath ++ ':' :: natStr c.hunkIndex,
                                   file := c.newPath, index := c.hunkIndex,
                                   header := h.header, oldStart := h.oldStart,
                                   oldCount := h.oldCount, newStart := h.newStart,
                                   newCount := h.newCount, lines := [] ++ h.lines,
                                   context := h.context },
                 hunkIndex := c.hunkIndex + 1 }
        (i + 1) (by show HunksWF c.newPath (i + 1) rest; exact hwfr) hmeta
        (by show c.hunkIndex + 1 = i + 1; rw [hidx])
      refine ⟨c', hrun, ?_⟩
      rw [hclose]
      have hh : ({ id := c.newPath ++ ':' :: natStr c.hunkIndex,
                   file := c.newPath, index := c.hunkIndex, header := h.header,
                   oldStart := h.oldStart, oldCount := h.oldCount,
                   newStart := h.newStart, newCount := h.newCount,
                   lines := [] ++ h.lines, context := h.context } : Hunk) = h := by
        rw [hidx, ← hid, ← hfile, ← hindex, List.nil_append]
      rw [hh]
      simp

theorem parseRun_file (f : Str) (hs : List Hunk) (F : List FileDiff)
    (cur0 : Option CurFile) (hne : f ≠ []) (hnb : splitLastB f = Option.none)
    (hsorted : List.Pairwise (fun a b => a.oldStart ≤ b.oldStart) hs)
    (hwf : HunksWF f 0 hs) :
    ∃ c' : CurFile,
      (fileSection f hs).foldl parseStep ⟨F, cur0⟩ = ⟨F ++ closeOpt cur0, some c'⟩ ∧
      c'.close = { oldPath := f, newPath := f, isNew := false, isDeleted := false,
                   isRenamed := false, hunks := hs } := by
  have hren : decide (f ≠ f) = false := by simp
  unfold fileSection
  rw [sortByOldStart_sorted hs hsorted]
  simp only [List.foldl_cons]
  have hhdr : matchFileHeader ("diff --git a/".toList ++ f ++ " b/".toList ++ f) =
      some (f, f) := by
    have hform : ("diff --git a/".toList ++ f ++ " b/".toList ++ f) =
        ("diff --git a/".toList ++ (f ++ ' ' :: 'b' :: '/' :: f)) := by
      simp [List.append_assoc]
    rw [hform]
    exact matchFileHeader_built f hne hnb
  rw [parseStep_fileHdr _ _ f f hhdr]
  have hm1 : matchFileHeader ("--- a/".toList ++ f) = Option.none := mfhDash _
  rw [parseStep_cur _ _ _ hm1 rfl, if_pos rfl,
    if_neg (fun hh => Bool.noConfusion hh), if_neg (fun hh => Bool.noConfusion hh),
    if_pos (show isOtherMeta ("--- a/".toList ++ f) = true from rfl)]
  have hm2 : matchFileHeader ("+++ b/".toList ++ f) = Option.none := mfhPlus _
  rw [parseStep_cur _ _ _ hm2 rfl, if_pos rfl,
    if_neg (fun hh => Bool.noConfusion hh), if_neg (fun hh => Bool.noConfusion hh),
    if_pos (show isOtherMeta ("+++ b/".toList ++ f) = true from rfl)]
  cases hs with
  | nil =>
    refine ⟨{ oldPath := f, newPath := f, isNew := false, isDeleted := false,
              isRenamed := decide (f ≠ f), hunks := [], curHunk := Option.none,
              hunkIndex := 0, metaMode := true }, by simp, ?_⟩
    show CurFile.close _ = _
    unfold CurFile.close
    simp only [Option.toList_none, List.append_nil]
    rw [hren]
  | cons h rest =>
    obtain ⟨hwf1, hwfr⟩ := hwf
    obtain ⟨hid, hfile, hindex, hhdrh, hnlh, hlnl⟩ := hwf1
    obtain ⟨raw, hm, hctx⟩ := parseHunkHeader_inv h.header _ hhdrh
    obtain ⟨cs, hcs⟩ := mhh_head h.header _ hm
    simp only [List.flatMap_cons, List.cons_append, List.foldl_cons]
    have hL : parseStep ⟨F ++ closeOpt cur0, some
        { oldPath := f, newPath := f, isNew := false, isDeleted := false,
          isRenamed := decide (f ≠ f), hunks := [], curHunk := Option.none,
          hunkIndex := 0, metaMode := true }⟩ h.header =
        ⟨F ++ closeOpt cur0, some (hunkLineStep
          { oldPath := f, newPath := f, isNew := false, isDeleted := false,
            isRenamed := decide (f ≠ f), hunks := [], curHunk := Option.none,
            hunkIndex := 0, metaMode := false } h.header)⟩ := by
      rw [hcs]
      rw [parseStep_cur _ _ _ (mfhAt cs) rfl, if_pos rfl,
        if_neg (fun hh => Bool.noConfusion hh), if_neg (fun hh => Bool.noConfusion hh),
        if_neg (fun hh => Bool.noConfusion hh)]
    have hR : parseStep ⟨F ++ closeOpt cur0, some
        { oldPath := f, newPath := f, isNew := false, isDeleted := false,
          isRenamed := decide (f ≠ f), hunks := [], curHunk := Option.none,
          hunkIndex := 0, metaMode := false }⟩ h.header =
        ⟨F ++ closeOpt cur0, some (hunkLineStep
          { oldPath := f, newPath := f, isNew := false, isDeleted := false,
            isRenamed := decide (f ≠ f), hunks := [], curHunk := Option.none,
            hunkIndex := 0, metaMode := false } h.header)⟩ := by
      rw [hcs]
      rw [parseStep_cur _ _ _ (mfhAt cs) rfl,
        if_neg (fun hh => Bool.noConfusion hh)]
    rw [hL]
    obtain ⟨c', hrun, hclose⟩ := parseRun_hunks (h :: rest) (F ++ closeOpt cur0)
      { oldPath := f, newPath := f, isNew := false, isDeleted := false,
        isRenamed := decide (f ≠ f), hunks := [], curHunk := Option.none,
        hunkIndex := 0, metaMode := false } 0
      (by show HunksWF f 0 (h :: rest)
          exact ⟨⟨hid, hfile, hindex, hhdrh, hnlh, hlnl⟩, hwfr⟩) rfl rfl
    simp only [List.flatMap_cons, List.cons_append, List.foldl_cons] at hrun
    rw [hR] at hrun
    refine ⟨c', hrun, ?_⟩
    rw [hclose, hren]
    rfl

theorem parseRun_groups :
    ∀ (gps : List (Str × List Hunk)) (F : List FileDiff) (cur0 : Option CurFile),
      (∀ p ∈ gps, p.1 ≠ [] ∧ splitLastB p.1 = Option.none ∧
        List.Pairwise (fun a b => a.oldStart ≤ b.oldStart) p.2 ∧ HunksWF p.1 0 p.2) →
      ((gps.flatMap (fun p => fileSection p.1 p.2)).foldl parseStep ⟨F, cur0⟩).files ++
        closeOpt ((gps.flatMap (fun p => fileSection p.1 p.2)).foldl parseStep
          ⟨F, cur0⟩).cur =
        F ++ closeOpt cur0 ++ gps.map (fun p =>
          { oldPath := p.1, newPath := p.1, isNew := false, isDeleted := false,
            isRenamed := false, hunks := p.2 })
  | [], F, cur0, _ => by simp
  | (f, hs) :: rest, F, cur0, hwf => by
    obtain ⟨hne, hnb, hsorted, hhs⟩ := hwf (f, hs) (by simp)
    simp only [List.flatMap_cons, List.foldl_append]
    obtain ⟨c', hrun, hclose⟩ := parseRun_file f hs F cur0 hne hnb hsorted hhs
    rw [hrun]
    rw [parseRun_groups rest (F ++ closeOpt cur0) (some c')
      (fun p hp => hwf p (List.mem_cons_of_mem _ hp))]
    show F ++ closeOpt cur0 ++ [c'.close] ++ _ = _
    rw [hclose]
    simp

theorem parse_final_line (st : PState) :
    (parseStep st []).files = st.files ∧
    closeOpt (parseStep st []).cur = closeOpt st.cur := by
  cases hcur : st.cur with
  | none =>
    rw [parseStep_noCur st [] mfhNil hcur]
    exact ⟨rfl, by rw [hcur]⟩
  | some c =>
    rw [parseStep_cur st [] c mfhNil hcur]
    cases hmeta : c.metaMode with
    | true =>
      rw [if_pos rfl, if_neg (fun hh => Bool.noConfusion hh),
        if_neg (fun hh => Bool.noConfusion hh), if_neg (fun hh => Bool.noConfusion hh)]
      refine ⟨rfl, ?_⟩
      cases hch : c.curHunk with
      | none =>
        rw [hunkLineStep_noHunk _ [] mhhNil rfl]
        simp [closeOpt, CurFile.close, hch]
      | some hk =>
        rw [hunkLineStep_nil_line _ hk mhhNil rfl]
        simp [closeOpt, CurFile.close, hch]
    | false =>
      rw [if_neg (fun hh => Bool.noConfusion hh)]
      refine ⟨rfl, ?_⟩
      cases hch : c.curHunk with
      | none =>
        rw [hunkLineStep_noHunk _ [] mhhNil hch]
      | some hk =>
        rw [hunkLineStep_nil_line _ hk mhhNil hch]

theorem HunksWF_mem (f : Str) :
    ∀ (i : Nat) (hs : List Hunk), HunksWF f i hs → ∀ h ∈ hs, ∃ j, HunkWF f j h
  | _, [], _, h, hm => absurd hm (by simp)
  | i, h0 :: rest, hwf, h, hm => by
    rcases List.mem_cons.mp hm with hm | hm
    · subst hm
      exact ⟨i, hwf.1⟩
    · exact HunksWF_mem f (i + 1) rest hwf.2 h hm

/-- C3 (amended): round-tripping holds for canonical diffs — distinct `b/`
paths, hunks already ordered by `oldStart` within each file, and each hunk
carrying the id/file/index/header a parse would assign.  The re-parsed diff
has exactly the same hunks (ids, line sequences, numeric fields and all). -/
theorem C3_round_trip (d : ParsedDiff) (hc : canonicalDiff d) :
    (parseDiff (generatePatch d.getAllHunks)).getAllHunks = d.getAllHunks := by
  obtain ⟨hnd, hfw⟩ := hc
  by_cases hemp : d.getAllHunks = []
  · rw [hemp]
    rfl
  · have hfl : ∀ f ∈ d.files, ∀ h ∈ f.hunks, h.file = f.newPath := by
      intro f hf h hh
      exact HunksWF_file f.newPath 0 f.hunks (hfw f hf).2.2.2.2 h hh
    have hgrp : groupByFile d.getAllHunks =
        (d.files.filter (fun f => !f.hunks.isEmpty)).map
          (fun f => (f.newPath, f.hunks)) :=
      groupByFile_canonical d.files hnd hfl
    have hpatch : generatePatch d.getAllHunks =
        List.intercalate ['\n']
          (((d.files.filter (fun f => !f.hunks.isEmpty)).map
            (fun f => (f.newPath, f.hunks))).flatMap (fun p => fileSection p.1 p.2))
          ++ ['\n'] := by
      unfold generatePatch
      rw [if_neg hemp, hgrp]
    have hfne : d.files.filter (fun f => !f.hunks.isEmpty) ≠ [] := by
      intro h0
      apply hemp
      have h1 := flatMap_filter_nonempty d.files
      rw [h0] at h1
      show d.files.flatMap (·.hunks) = []
      rw [← h1]
      rfl
    have hsne : ((d.files.filter (fun f => !f.hunks.isEmpty)).map
        (fun f => (f.newPath, f.hunks))).flatMap (fun p => fileSection p.1 p.2) ≠ [] := by
      cases hfil : d.files.filter (fun f => !f.hunks.isEmpty) with
      | nil => exact absurd hfil hfne
      | cons f0 rest =>
        simp only [List.map_cons, List.flatMap_cons]
        unfold fileSection
        simp
    have hnl : ∀ s ∈ ((d.files.filter (fun f => !f.hunks.isEmpty)).map
        (fun f => (f.newPath, f.hunks))).flatMap (fun p => fileSection p.1 p.2),
        ¬ '\n' ∈ s := by
      intro s hs
      rw [List.mem_flatMap] at hs
      obtain ⟨p, hp, hsp⟩ := hs
      rw [List.mem_map] at hp
      obtain ⟨f, hf, hpf⟩ := hp
      obtain ⟨hne, hnb, hfnl, hsorted, hhwf⟩ := hfw f (List.mem_filter.mp hf).1
      subst hpf
      unfold fileSection at hsp
      rw [sortByOldStart_sorted f.hunks hsorted] at hsp
      simp only [List.mem_cons] at hsp
      rcases hsp with hsp | hsp | hsp | hsp
      · subst hsp
        simp [hfnl]
      · subst hsp
        simp [hfnl]
      · subst hsp
        simp [hfnl]
      · rw [List.mem_flatMap] at hsp
        obtain ⟨h, hh, hsh⟩ := hsp
        obtain ⟨j, hj⟩ := HunksWF_mem f.newPath 0 f.hunks hhwf h hh
        obtain ⟨_, _, _, _, hhnl, hlnl⟩ := hj
        rcases List.mem_cons.mp hsh with hsh | hsh
        · subst hsh
          exact hhnl
        · rw [List.mem_map] at hsh
          obtain ⟨l, hl, hls⟩ := hsh
          subst hls
          intro hmem
          unfold lineText at hmem
          rcases List.mem_cons.mp hmem with hx | hx
          · cases hlt : l.type <;> rw [hlt] at hx <;> exact absurd hx (by decide)
          · exact hlnl l hl hx
    have hsplit := splitNl_join _ hsne hnl
    have hgps : ∀ p ∈ (d.files.filter (fun f => !f.hunks.isEmpty)).map
        (fun f => (f.newPath, f.hunks)),
        p.1 ≠ [] ∧ splitLastB p.1 = Option.none ∧
          List.Pairwise (fun a b => a.oldStart ≤ b.oldStart) p.2 ∧ HunksWF p.1 0 p.2 := by
      intro p hp
      rw [List.mem_map] at hp
      obtain ⟨f, hf, hpf⟩ := hp
      obtain ⟨hne, hnb, _, hsorted, hhwf⟩ := hfw f (List.mem_filter.mp hf).1
      subst hpf
      exact ⟨hne, hnb, hsorted, hhwf⟩
    have hrun := parseRun_groups ((d.files.filter (fun f => !f.hunks.isEmpty)).map
      (fun f => (f.newPath, f.hunks))) [] Option.none hgps
    rw [hpatch]
    unfold parseDiff
    rw [hsplit, List.foldl_append, List.foldl_cons, List.foldl_nil]
    show (ParsedDiff.mk _).files.flatMap (·.hunks) = _
    simp only []
    rw [(parse_final_line _).1, (parse_final_line _).2, hrun]
    rw [show closeOpt Option.none = [] from rfl, List.append_nil, List.nil_append,
      List.flatMap_map, List.flatMap_map]
    show (d.files.filter (fun f => !f.hunks.isEmpty)).flatMap (fun f => f.hunks) = _
    rw [flatMap_filter_nonempty]
    rfl

/-- A parsed diff whose single file's hunks are NOT in `oldStart` order:
`generatePatch` sorts them, so re-parsing permutes which hunk gets which id. -/
def c3Text : Str :=
  ("diff --git a/f b/f\n@@ -10,1 +10,1 @@\n-x\n@@ -1,1 +1,1 @@\n y\n").toList

/-- A canonical two-hunk diff (sorted by `oldStart`, distinct paths). -/
def c3WText : Str :=
  ("diff --git a/f b/f\n@@ -1,1 +1,1 @@\n y\n@@ -10,1 +10,1 @@\n-x\n").toList

/-- C3, counterexample: the round trip does NOT preserve per-id line
sequences and numeric fields for every `ParsedDiff`.  On `parseDiff c3Text`
(two hunks of one file with descending `oldStart`), `generatePatch` reorders
the hunks, so after re-parsing the id `f:0` denotes a different hunk with
different lines and a different `oldStart`. -/
theorem C3_counterexample :
    ¬ (∀ (d : ParsedDiff) (i : Str),
        ((parseDiff (generatePatch d.getAllHunks)).getHunk i).map
          (fun h => (h.lines, h.oldStart, h.oldCount, h.newStart, h.newCount)) =
        (d.getHunk i).map
          (fun h => (h.lines, h.oldStart, h.oldCount, h.newStart, h.newCount))) := by
  intro hall
  have h1 := hall (parseDiff c3Text) ("f:0".toList)
  revert h1
  decide

theorem C3_round_trip_witness :
    canonicalDiff (parseDiff c3WText) ∧
      (parseDiff (generatePatch (parseDiff c3WText).getAllHunks)).getAllHunks =
        (parseDiff c3WText).getAllHunks :=
  ⟨by decide, C3_round_trip (parseDiff c3WText) (by decide)⟩
